import Mathlib

/-!
Verification development for the Gomoku GTP front end in gtp_connection.py.

The heart of the program is the incremental run tracker: for each player a
Python dictionary maps a board coordinate (a pair of integers) to a record of
four run lengths, one per line direction.  The method insertKeyIntoDict
updates that dictionary after a placement and maintains, per player, the
maximum run length seen so far (the colorMax dictionary).  The surrounding
GTP command handlers (play, clear_board, boardsize, genmove,
gogui-rules_legal_moves, gogui-rules_final_result) consume this state.

This file embeds those parts of the source shallowly: the per-player
dictionary becomes an association list, the unbounded while loops of
insertKeyIntoDict become fuelled walks whose fuel provably exceeds every
chain the loop can traverse, and each command handler becomes a pure state
transition; exceptions become explicit error results carrying the state at
the raise point.  Functions of board_util.py, which is not part of this
repository's sources, are modelled from the specification and marked as such.
-/

/-- A board coordinate as used by the run tracker: a (row, column) pair of
integers.  Neighbour probes in insertKeyIntoDict may step outside the board,
so the components are unbounded integers, exactly like Python tuple
arithmetic. -/
abbrev Coord := Int × Int

/-- Componentwise sum of two coordinates, mirroring the tuple arithmetic
(coord[0]+dr, coord[1]+dc) in the source. -/
def cadd (a b : Coord) : Coord := (a.1 + b.1, a.2 + b.2)

/-- Componentwise negation of a coordinate. -/
def cneg (a : Coord) : Coord := (-a.1, -a.2)

/-- The point reached from p after k steps of the vector s (k may be
negative: negative values walk the opposite way along the same line). -/
def shiftZ (p : Coord) (k : Int) (s : Coord) : Coord :=
  (p.1 + k * s.1, p.2 + k * s.2)

/-- The four per-direction counters stored for every occupied cell; the
Python source keeps them as the dictionary
lit upDown / leftRight / backslash / forwardslash initialised to 1. -/
structure Dirs where
  upDown : Nat
  leftRight : Nat
  backslash : Nat
  forwardslash : Nat
deriving DecidableEq, Repr

/-- Names of the four direction keys of the per-cell dictionary. -/
inductive DirKey where
  | upDown
  | leftRight
  | backslash
  | forwardslash
deriving DecidableEq, Repr

/-- Read the counter of one direction. -/
def Dirs.get (ds : Dirs) : DirKey → Nat
  | .upDown => ds.upDown
  | .leftRight => ds.leftRight
  | .backslash => ds.backslash
  | .forwardslash => ds.forwardslash

/-- Write the counter of one direction. -/
def Dirs.set (ds : Dirs) : DirKey → Nat → Dirs
  | .upDown, v => { ds with upDown := v }
  | .leftRight, v => { ds with leftRight := v }
  | .backslash, v => { ds with backslash := v }
  | .forwardslash, v => { ds with forwardslash := v }

/-- The unit step of each direction, chosen so that the second neighbour
inspected by the source block is coord + step and the first is coord - step:
upDown inspects (r-1,c) then (r+1,c); leftRight (r,c-1) then (r,c+1);
backslash (r-1,c-1) then (r+1,c+1); forwardslash (r-1,c+1) then (r+1,c-1). -/
def step : DirKey → Coord
  | .upDown => (1, 0)
  | .leftRight => (0, 1)
  | .backslash => (1, 1)
  | .forwardslash => (1, -1)

/-- A player's move dictionary: the Python dict mapping occupied coordinates
to their Dirs record, embedded as an association list in insertion order. -/
abbrev MoveDict := List (Coord × Dirs)

/-- Dictionary lookup. -/
def lookupD : MoveDict → Coord → Option Dirs
  | [], _ => none
  | (c', ds) :: rest, c => if c = c' then some ds else lookupD rest c

/-- Membership test, the source's coord in dictPointer.keys(). -/
def memD (d : MoveDict) (c : Coord) : Bool := (lookupD d c).isSome

/-- Read one direction counter of one cell; 0 when the cell is absent (the
source only reads counters of cells it has just tested for membership). -/
def getD (d : MoveDict) (c : Coord) (dir : DirKey) : Nat :=
  match lookupD d c with
  | some ds => ds.get dir
  | none => 0

/-- In-place update of one direction counter of one cell, the source's
dictPointer.get(c)[dir] = v. -/
def setD : MoveDict → Coord → DirKey → Nat → MoveDict
  | [], _, _, _ => []
  | (c', ds) :: rest, c, dir, v =>
    if c' = c then (c', ds.set dir v) :: setD rest c dir v
    else (c', ds) :: setD rest c dir v

/-- The source's dictPointer.setdefault(coord, default): keep an existing
entry, otherwise append the new entry (Python dicts append new keys at the
end of the insertion order). -/
def setdefaultD (d : MoveDict) (c : Coord) (v : Dirs) : MoveDict :=
  if memD d c then d else d ++ [(c, v)]

section BasicLemmas

theorem shiftZ_zero (p : Coord) (s : Coord) : shiftZ p 0 s = p := by
  simp [shiftZ]

theorem shiftZ_natCast_zero (p : Coord) (s : Coord) :
    shiftZ p ((0 : Nat) : Int) s = p := by
  have h : ((0 : Nat) : Int) = 0 := by norm_num
  rw [h, shiftZ_zero]

theorem shiftZ_shiftZ (p : Coord) (i j : Int) (s : Coord) :
    shiftZ (shiftZ p i s) j s = shiftZ p (i + j) s := by
  unfold shiftZ
  rw [Prod.mk.injEq]
  constructor <;> ring

theorem shiftZ_cadd (p : Coord) (i : Int) (s : Coord) :
    shiftZ (cadd p s) i s = shiftZ p (i + 1) s := by
  unfold shiftZ cadd
  rw [Prod.mk.injEq]
  constructor <;> ring

theorem cadd_eq_shiftZ_one (p : Coord) (s : Coord) : cadd p s = shiftZ p 1 s := by
  unfold shiftZ cadd
  rw [Prod.mk.injEq]
  constructor <;> ring

theorem shiftZ_cneg (p : Coord) (i : Int) (s : Coord) :
    shiftZ p i (cneg s) = shiftZ p (-i) s := by
  unfold shiftZ cneg
  rw [Prod.mk.injEq]
  constructor <;> ring

theorem cneg_ne_zero {s : Coord} (hs : s ≠ ((0 : Int), (0 : Int))) :
    cneg s ≠ ((0 : Int), (0 : Int)) := by
  intro h
  apply hs
  have h1 : -s.1 = 0 := congrArg Prod.fst h
  have h2 : -s.2 = 0 := congrArg Prod.snd h
  have hps : s = (s.1, s.2) := rfl
  rw [hps, Prod.mk.injEq]
  constructor <;> omega

theorem shiftZ_inj {p : Coord} {s : Coord} (hs : s ≠ ((0 : Int), (0 : Int)))
    {i j : Int} (h : shiftZ p i s = shiftZ p j s) : i = j := by
  have h1 : p.1 + i * s.1 = p.1 + j * s.1 := congrArg Prod.fst h
  have h2 : p.2 + i * s.2 = p.2 + j * s.2 := congrArg Prod.snd h
  have hs' : s.1 ≠ 0 ∨ s.2 ≠ 0 := by
    by_contra hcon
    push_neg at hcon
    exact hs (by
      have : s = (s.1, s.2) := rfl
      rw [this, hcon.1, hcon.2])
  rcases hs' with h5 | h5
  · have : i * s.1 = j * s.1 := by omega
    exact mul_right_cancel₀ h5 this
  · have : i * s.2 = j * s.2 := by omega
    exact mul_right_cancel₀ h5 this

theorem shiftZ_ne_self {p : Coord} {s : Coord} (hs : s ≠ ((0 : Int), (0 : Int)))
    {i : Int} (hi : i ≠ 0) : shiftZ p i s ≠ p := by
  intro h
  have := shiftZ_inj hs (p := p) (i := i) (j := 0) (by rw [h, shiftZ_zero])
  exact hi this

theorem step_ne_zero (dir : DirKey) : step dir ≠ ((0 : Int), (0 : Int)) := by
  cases dir <;> simp [step]

theorem lookupD_append_right (d : MoveDict) (c c' : Coord) (v : Dirs)
    (h : lookupD d c' = none) :
    lookupD (d ++ [(c, v)]) c' = if c' = c then some v else none := by
  induction d with
  | nil => simp [lookupD]
  | cons hd tl ih =>
    by_cases hc : c' = hd.1
    · simp [lookupD, hc] at h
    · simp only [lookupD, hc, if_neg] at h ⊢
      exact ih h

theorem lookupD_append_left (d : MoveDict) (c c' : Coord) (v : Dirs)
    (h : lookupD d c' = some v) (tail : MoveDict) :
    lookupD (d ++ tail) c' = some v := by
  induction d with
  | nil => simp [lookupD] at h
  | cons hd tl ih =>
    by_cases hc : c' = hd.1
    · simp only [lookupD, hc, if_pos] at h ⊢
      exact h
    · simp only [lookupD, hc, if_neg] at h ⊢
      exact ih h

theorem Dirs.get_set_same (ds : Dirs) (dir : DirKey) (v : Nat) :
    (ds.set dir v).get dir = v := by
  cases dir <;> rfl

theorem Dirs.get_set_ne (ds : Dirs) (dir dir' : DirKey) (v : Nat)
    (h : dir' ≠ dir) : (ds.set dir v).get dir' = ds.get dir' := by
  cases dir <;> cases dir' <;> first | rfl | exact absurd rfl h

theorem lookupD_setD (d : MoveDict) (c : Coord) (dir : DirKey) (v : Nat)
    (c' : Coord) :
    lookupD (setD d c dir v) c' =
      if c' = c then (lookupD d c').map (fun ds => ds.set dir v)
      else lookupD d c' := by
  induction d with
  | nil => simp [lookupD, setD]
  | cons hd tl ih =>
    obtain ⟨ch, dsh⟩ := hd
    by_cases h1 : ch = c
    · subst h1
      by_cases h2 : c' = ch
      · subst h2
        simp [lookupD, setD]
      · simp only [setD, if_pos rfl, lookupD, if_neg h2]
        rw [ih, if_neg h2]
    · by_cases h2 : c' = ch
      · subst h2
        rw [if_neg (fun h => h1 h)]
        simp [setD, lookupD, if_neg h1]
      · simp only [setD, if_neg h1, lookupD, if_neg h2]
        exact ih

theorem memD_setD (d : MoveDict) (c : Coord) (dir : DirKey) (v : Nat)
    (c' : Coord) : memD (setD d c dir v) c' = memD d c' := by
  unfold memD
  rw [lookupD_setD]
  by_cases h : c' = c
  · rw [if_pos h]
    cases lookupD d c' <;> simp
  · rw [if_neg h]

theorem getD_setD_same (d : MoveDict) (c : Coord) (dir : DirKey) (v : Nat)
    (h : memD d c = true) : getD (setD d c dir v) c dir = v := by
  unfold getD
  rw [lookupD_setD, if_pos rfl]
  unfold memD at h
  cases hl : lookupD d c with
  | none => rw [hl] at h; simp at h
  | some ds => simp [Dirs.get_set_same]

theorem getD_setD_ne_coord (d : MoveDict) (c : Coord) (dir : DirKey) (v : Nat)
    (c' : Coord) (h : c' ≠ c) (dir' : DirKey) :
    getD (setD d c dir v) c' dir' = getD d c' dir' := by
  unfold getD
  rw [lookupD_setD, if_neg h]

theorem getD_setD_ne_dir (d : MoveDict) (c : Coord) (dir : DirKey) (v : Nat)
    (c' : Coord) (dir' : DirKey) (h : dir' ≠ dir) :
    getD (setD d c dir v) c' dir' = getD d c' dir' := by
  unfold getD
  rw [lookupD_setD]
  by_cases hc : c' = c
  · rw [if_pos hc]
    cases lookupD d c' <;> simp [Dirs.get_set_ne _ _ _ _ h]
  · rw [if_neg hc]

theorem getD_eq_zero_of_not_mem (d : MoveDict) (c : Coord) (dir : DirKey)
    (h : memD d c = false) : getD d c dir = 0 := by
  unfold memD at h
  unfold getD
  cases hl : lookupD d c with
  | none => rfl
  | some ds => rw [hl] at h; simp at h

end BasicLemmas

/-- One propagation walk of insertKeyIntoDict: starting at pos, while the
current position is a key of the dictionary, overwrite its counter for dir
with v and advance one step of s.  The source loops while the recomputed
neighbour position is still a key; the walk is embedded with explicit fuel,
and every use supplies fuel at least the length of the dictionary, which
bounds every membership chain, so the fuelled walk computes exactly what the
unbounded Python loop does. -/
def setChain (d : MoveDict) (dir : DirKey) (pos s : Coord) (v : Nat) : Nat → MoveDict
  | 0 => d
  | fuel + 1 =>
    if memD d pos then setChain (setD d pos dir v) dir (cadd pos s) s v fuel else d

theorem memD_setChain (dir : DirKey) (s : Coord) (v : Nat) :
    ∀ (fuel : Nat) (d : MoveDict) (pos : Coord) (c : Coord),
      memD (setChain d dir pos s v fuel) c = memD d c := by
  intro fuel
  induction fuel with
  | zero => intro d pos c; rfl
  | succ n ih =>
    intro d pos c
    unfold setChain
    by_cases h : memD d pos
    · rw [if_pos h, ih, memD_setD]
    · rw [if_neg h]

theorem getD_setChain_ne_dir (dir dir' : DirKey) (hdir : dir' ≠ dir) (s : Coord)
    (v : Nat) :
    ∀ (fuel : Nat) (d : MoveDict) (pos : Coord) (c : Coord),
      getD (setChain d dir pos s v fuel) c dir' = getD d c dir' := by
  intro fuel
  induction fuel with
  | zero => intro d pos c; rfl
  | succ n ih =>
    intro d pos c
    unfold setChain
    by_cases h : memD d pos
    · rw [if_pos h, ih, getD_setD_ne_dir _ _ _ _ _ _ hdir]
    · rw [if_neg h]

/-- Positions off the chain of length L starting at pos keep their entry:
the walk stops at the first non-member, so it writes only at the chain
cells. -/
theorem lookupD_setChain_off (dir : DirKey) {s : Coord} (v : Nat) :
    ∀ (L : Nat) (d : MoveDict) (pos : Coord) (fuel : Nat),
      (∀ k : Nat, k < L → memD d (shiftZ pos k s) = true) →
      memD d (shiftZ pos L s) = false →
      L ≤ fuel →
      ∀ c : Coord, (∀ k : Nat, k < L → c ≠ shiftZ pos k s) →
        lookupD (setChain d dir pos s v fuel) c = lookupD d c := by
  intro L
  induction L with
  | zero =>
    intro d pos fuel hmem hend hfuel c hoff
    cases fuel with
    | zero => rfl
    | succ n =>
      unfold setChain
      rw [shiftZ_natCast_zero] at hend
      rw [hend]
      simp
  | succ M ih =>
    intro d pos fuel hmem hend hfuel c hoff
    cases fuel with
    | zero => omega
    | succ n =>
      unfold setChain
      have hpos : memD d pos = true := by
        have := hmem 0 (by omega)
        rwa [shiftZ_natCast_zero] at this
      rw [hpos]
      simp only [if_pos]
      have hstep : ∀ k : Nat, shiftZ (cadd pos s) k s = shiftZ pos (k + 1) s := by
        intro k
        rw [cadd_eq_shiftZ_one, shiftZ_shiftZ]
        congr 1
        omega
      have h1 : ∀ k : Nat, k < M → memD (setD d pos dir v) (shiftZ (cadd pos s) k s) = true := by
        intro k hk
        rw [memD_setD, hstep]
        exact hmem (k + 1) (by omega)
      have h2 : memD (setD d pos dir v) (shiftZ (cadd pos s) M s) = false := by
        rw [memD_setD, hstep]
        exact hend
      have h3 : ∀ k : Nat, k < M → c ≠ shiftZ (cadd pos s) k s := by
        intro k hk
        rw [hstep]
        exact hoff (k + 1) (by omega)
      rw [ih (setD d pos dir v) (cadd pos s) n h1 h2 (by omega) c h3]
      rw [lookupD_setD]
      have hc : c ≠ pos := by
        have := hoff 0 (by omega)
        rwa [shiftZ_natCast_zero] at this
      rw [if_neg hc]

/-- Every cell of the chain of length L starting at pos receives the value v. -/
theorem getD_setChain_chain (dir : DirKey) {s : Coord}
    (hs : s ≠ ((0 : Int), (0 : Int))) (v : Nat) :
    ∀ (L : Nat) (d : MoveDict) (pos : Coord) (fuel : Nat),
      (∀ k : Nat, k < L → memD d (shiftZ pos k s) = true) →
      memD d (shiftZ pos L s) = false →
      L ≤ fuel →
      ∀ k : Nat, k < L →
        getD (setChain d dir pos s v fuel) (shiftZ pos k s) dir = v := by
  intro L
  induction L with
  | zero =>
    intro d pos fuel hmem hend hfuel k hk
    omega
  | succ M ih =>
    intro d pos fuel hmem hend hfuel k hk
    cases fuel with
    | zero => omega
    | succ n =>
      unfold setChain
      have hpos : memD d pos = true := by
        have := hmem 0 (by omega)
        rwa [shiftZ_natCast_zero] at this
      rw [hpos]
      simp only [if_pos]
      have hstep : ∀ j : Nat, shiftZ (cadd pos s) j s = shiftZ pos (j + 1) s := by
        intro j
        rw [cadd_eq_shiftZ_one, shiftZ_shiftZ]
        congr 1
        omega
      have h1 : ∀ j : Nat, j < M → memD (setD d pos dir v) (shiftZ (cadd pos s) j s) = true := by
        intro j hj
        rw [memD_setD, hstep]
        exact hmem (j + 1) (by omega)
      have h2 : memD (setD d pos dir v) (shiftZ (cadd pos s) M s) = false := by
        rw [memD_setD, hstep]
        exact hend
      cases k with
      | zero =>
        rw [shiftZ_natCast_zero]
        have hoff : ∀ j : Nat, j < M → pos ≠ shiftZ (cadd pos s) j s := by
          intro j hj
          rw [hstep]
          intro hcon
          have := shiftZ_inj hs (p := pos) (i := 0) (j := ((j : Int) + 1)) (by
            rw [shiftZ_zero]
            exact hcon)
          omega
        have := lookupD_setChain_off dir v M (setD d pos dir v) (cadd pos s) n h1 h2
          (by omega) pos hoff
        unfold getD
        rw [this, lookupD_setD, if_pos rfl]
        unfold memD at hpos
        cases hl : lookupD d pos with
        | none => rw [hl] at hpos; simp at hpos
        | some ds => simp [Dirs.get_set_same]
      | succ j =>
        have : shiftZ pos ((j : Int) + 1) s = shiftZ (cadd pos s) j s := by
          rw [hstep]
        have hcast : ((j + 1 : Nat) : Int) = (j : Int) + 1 := by omega
        rw [hcast, this]
        exact ih (setD d pos dir v) (cadd pos s) n h1 h2 (by omega) j (by omega)

theorem getD_setChain_off (dir : DirKey) {s : Coord} (v : Nat)
    (L : Nat) (d : MoveDict) (pos : Coord) (fuel : Nat)
    (hmem : ∀ k : Nat, k < L → memD d (shiftZ pos k s) = true)
    (hend : memD d (shiftZ pos L s) = false)
    (hfuel : L ≤ fuel)
    (c : Coord) (hoff : ∀ k : Nat, k < L → c ≠ shiftZ pos k s) (dir' : DirKey) :
    getD (setChain d dir pos s v fuel) c dir' = getD d c dir' := by
  unfold getD
  rw [lookupD_setChain_off dir v L d pos fuel hmem hend hfuel c hoff]

/-- One neighbour block of insertKeyIntoDict for a given direction key: if
the neighbour coord + s is occupied, add its counter to the placed cell's
counter and then walk outward from the neighbour rewriting every chained
cell with the placed cell's updated counter. -/
def processSide (d : MoveDict) (dir : DirKey) (coord s : Coord) (fuel : Nat) :
    MoveDict :=
  if memD d (cadd coord s) then
    let d1 := setD d coord dir (getD d coord dir + getD d (cadd coord s) dir)
    setChain d1 dir (cadd coord s) s (getD d1 coord dir) fuel
  else d

/-- The whole per-direction body of insertKeyIntoDict: the first-neighbour
block (towards coord - step), the second-neighbour block (towards
coord + step), then the unconditional re-walk towards coord - step with the
final counter of the placed cell. -/
def processDir (d : MoveDict) (dir : DirKey) (coord : Coord) (fuel : Nat) :
    MoveDict :=
  let s := step dir
  let d1 := processSide d dir coord (cneg s) fuel
  let d2 := processSide d1 dir coord s fuel
  setChain d2 dir (cadd coord (cneg s)) (cneg s) (getD d2 coord dir) fuel

theorem memD_processSide (d : MoveDict) (dir : DirKey) (coord s : Coord)
    (fuel : Nat) (c : Coord) :
    memD (processSide d dir coord s fuel) c = memD d c := by
  unfold processSide
  by_cases h : memD d (cadd coord s)
  · rw [if_pos h]
    simp only
    rw [memD_setChain, memD_setD]
  · rw [if_neg h]

theorem getD_processSide_ne_dir (d : MoveDict) (dir dir' : DirKey)
    (hdir : dir' ≠ dir) (coord s : Coord) (fuel : Nat) (c : Coord) :
    getD (processSide d dir coord s fuel) c dir' = getD d c dir' := by
  unfold processSide
  by_cases h : memD d (cadd coord s)
  · rw [if_pos h]
    simp only
    rw [getD_setChain_ne_dir _ _ hdir, getD_setD_ne_dir _ _ _ _ _ _ hdir]
  · rw [if_neg h]

theorem memD_processDir (d : MoveDict) (dir : DirKey) (coord : Coord)
    (fuel : Nat) (c : Coord) :
    memD (processDir d dir coord fuel) c = memD d c := by
  unfold processDir
  simp only
  rw [memD_setChain, memD_processSide, memD_processSide]

theorem getD_processDir_ne_dir (d : MoveDict) (dir dir' : DirKey)
    (hdir : dir' ≠ dir) (coord : Coord) (fuel : Nat) (c : Coord) :
    getD (processDir d dir coord fuel) c dir' = getD d c dir' := by
  unfold processDir
  simp only
  rw [getD_setChain_ne_dir _ _ hdir, getD_processSide_ne_dir _ _ _ hdir,
    getD_processSide_ne_dir _ _ _ hdir]

/-- Behaviour of one neighbour block on the chain of L occupied cells
reaching out from coord along s: the placed cell's counter gains the
immediate neighbour's counter, every chain cell is overwritten with that
sum, and everything else is untouched.  When L = 0 the immediate neighbour
is free, the block is skipped, and the conclusions degenerate accordingly
(the absent neighbour contributes getD = 0). -/
theorem processSide_spec (d : MoveDict) (dir : DirKey) (coord : Coord)
    {s : Coord} (hs : s ≠ ((0 : Int), (0 : Int))) (fuel : Nat) (L : Nat)
    (hcoord : memD d coord = true)
    (hmem : ∀ k : Nat, k < L → memD d (shiftZ coord ((k : Int) + 1) s) = true)
    (hend : memD d (shiftZ coord ((L : Int) + 1) s) = false)
    (hfuel : L ≤ fuel) :
    getD (processSide d dir coord s fuel) coord dir
        = getD d coord dir + getD d (shiftZ coord 1 s) dir ∧
    (∀ k : Nat, k < L →
      getD (processSide d dir coord s fuel) (shiftZ coord ((k : Int) + 1) s) dir
        = getD d coord dir + getD d (shiftZ coord 1 s) dir) ∧
    (∀ c : Coord, c ≠ coord →
      (∀ k : Nat, k < L → c ≠ shiftZ coord ((k : Int) + 1) s) →
      lookupD (processSide d dir coord s fuel) c = lookupD d c) := by
  cases L with
  | zero =>
    have hnb : memD d (cadd coord s) = false := by
      rw [cadd_eq_shiftZ_one]
      have h0 : ((0 : Nat) : Int) + 1 = 1 := by norm_num
      rw [← h0]
      exact hend
    unfold processSide
    rw [hnb]
    simp only [Bool.false_eq_true, if_false]
    refine ⟨?_, ?_, ?_⟩
    · have : getD d (shiftZ coord 1 s) dir = 0 := by
        apply getD_eq_zero_of_not_mem
        have h0 : ((0 : Nat) : Int) + 1 = 1 := by norm_num
        rw [← h0]
        exact hend
      omega
    · intro k hk; omega
    · intro c hc hoff; trivial
  | succ L' =>
    have hnb : memD d (cadd coord s) = true := by
      rw [cadd_eq_shiftZ_one]
      have h0 : ((0 : Nat) : Int) + 1 = 1 := by norm_num
      rw [← h0]
      exact hmem 0 (by omega)
    unfold processSide
    rw [hnb]
    simp only [if_true]
    have hone : cadd coord s = shiftZ coord 1 s := cadd_eq_shiftZ_one coord s
    set x := getD d coord dir with hx
    set A := getD d (cadd coord s) dir with hA
    have hAeq : A = getD d (shiftZ coord 1 s) dir := by rw [hA, hone]
    set d1 := setD d coord dir (x + A) with hd1
    have hd1coord : getD d1 coord dir = x + A := by
      rw [hd1]
      exact getD_setD_same d coord dir (x + A) hcoord
    rw [hd1coord]
    -- chain hypotheses for the walk from the neighbour, in d1
    have hchain : ∀ k : Nat, k < L' + 1 →
        memD d1 (shiftZ (cadd coord s) (k : Int) s) = true := by
      intro k hk
      rw [hd1, memD_setD, shiftZ_cadd]
      exact hmem k hk
    have hchend : memD d1 (shiftZ (cadd coord s) ((L' + 1 : Nat) : Int) s) = false := by
      rw [hd1, memD_setD, shiftZ_cadd]
      have : ((L' + 1 : Nat) : Int) + 1 = ((L' + 1 : Nat) : Int) + 1 := rfl
      exact hend
    refine ⟨?_, ?_, ?_⟩
    · have hoff : ∀ k : Nat, k < L' + 1 → coord ≠ shiftZ (cadd coord s) (k : Int) s := by
        intro k hk
        rw [shiftZ_cadd]
        intro hcon
        exact shiftZ_ne_self hs (i := (k : Int) + 1) (by omega) hcon.symm
      rw [getD_setChain_off dir (x + A) (L' + 1) d1 (cadd coord s) fuel hchain hchend
        hfuel coord hoff dir]
      rw [hd1coord, hAeq]
    · intro k hk
      have : shiftZ coord ((k : Int) + 1) s = shiftZ (cadd coord s) (k : Int) s := by
        rw [shiftZ_cadd]
      rw [this]
      have := getD_setChain_chain dir hs (x + A) (L' + 1) d1 (cadd coord s) fuel
        hchain hchend hfuel k hk
      rw [this, hAeq]
    · intro c hc hoff
      have hoff' : ∀ k : Nat, k < L' + 1 → c ≠ shiftZ (cadd coord s) (k : Int) s := by
        intro k hk
        rw [shiftZ_cadd]
        exact hoff k hk
      rw [lookupD_setChain_off dir (x + A) (L' + 1) d1 (cadd coord s) fuel hchain hchend
        hfuel c hoff']
      rw [hd1, lookupD_setD, if_neg hc]

/-- Behaviour of the whole per-direction body on a placement coord whose
occupied chains along the two sides of the line have lengths a and b: the
placed cell's counter becomes old + both immediate neighbours' counters,
every cell of both chains is overwritten with that sum (the trailing
re-walk repairs the first side), and all other cells are untouched. -/
theorem processDir_spec (d : MoveDict) (dir : DirKey) (coord : Coord)
    (fuel : Nat) (a b : Nat)
    (hcoord : memD d coord = true)
    (ha : ∀ k : Nat, k < a →
      memD d (shiftZ coord ((k : Int) + 1) (cneg (step dir))) = true)
    (haend : memD d (shiftZ coord ((a : Int) + 1) (cneg (step dir))) = false)
    (hb : ∀ k : Nat, k < b →
      memD d (shiftZ coord ((k : Int) + 1) (step dir)) = true)
    (hbend : memD d (shiftZ coord ((b : Int) + 1) (step dir)) = false)
    (hfa : a ≤ fuel) (hfb : b ≤ fuel) :
    getD (processDir d dir coord fuel) coord dir
        = getD d coord dir + getD d (shiftZ coord 1 (cneg (step dir))) dir
          + getD d (shiftZ coord 1 (step dir)) dir ∧
    (∀ k : Nat, k < a →
      getD (processDir d dir coord fuel) (shiftZ coord ((k : Int) + 1) (cneg (step dir))) dir
        = getD d coord dir + getD d (shiftZ coord 1 (cneg (step dir))) dir
          + getD d (shiftZ coord 1 (step dir)) dir) ∧
    (∀ k : Nat, k < b →
      getD (processDir d dir coord fuel) (shiftZ coord ((k : Int) + 1) (step dir)) dir
        = getD d coord dir + getD d (shiftZ coord 1 (cneg (step dir))) dir
          + getD d (shiftZ coord 1 (step dir)) dir) ∧
    (∀ c : Coord, c ≠ coord →
      (∀ k : Nat, k < a → c ≠ shiftZ coord ((k : Int) + 1) (cneg (step dir))) →
      (∀ k : Nat, k < b → c ≠ shiftZ coord ((k : Int) + 1) (step dir)) →
      lookupD (processDir d dir coord fuel) c = lookupD d c) := by
  have hs : step dir ≠ ((0 : Int), (0 : Int)) := step_ne_zero dir
  have hu : cneg (step dir) ≠ ((0 : Int), (0 : Int)) := cneg_ne_zero hs
  set s := step dir with hsdef
  set u := cneg s with hudef
  set x := getD d coord dir with hxdef
  set A := getD d (shiftZ coord 1 u) dir with hAdef
  set B := getD d (shiftZ coord 1 s) dir with hBdef
  set d1 := processSide d dir coord u fuel with hd1def
  set d2 := processSide d1 dir coord s fuel with hd2def
  have hpd : processDir d dir coord fuel
      = setChain d2 dir (cadd coord u) u (getD d2 coord dir) fuel := rfl
  -- distinctness between positions along the line: an s-index and a u-index
  have hind : ∀ (i j : Int), i ≠ j → shiftZ coord i s ≠ shiftZ coord j s := by
    intro i j hij hcon
    exact hij (shiftZ_inj hs hcon)
  obtain ⟨s1a, s1b, s1c⟩ :=
    processSide_spec d dir coord hu fuel a hcoord ha haend hfa
  have f1 : getD d1 coord dir = x + A := s1a
  have hscellu : ∀ (i : Int) (k : Nat), k < a → i ≠ -((k : Int) + 1) →
      shiftZ coord i s ≠ shiftZ coord ((k : Int) + 1) u := by
    intro i k hk hne
    rw [hudef, shiftZ_cneg]
    exact hind i (-((k : Int) + 1)) hne
  have hB1 : getD d1 (shiftZ coord 1 s) dir = B := by
    have hcne : shiftZ coord 1 s ≠ coord := shiftZ_ne_self hs (by omega)
    have hoffu : ∀ k : Nat, k < a → shiftZ coord 1 s ≠ shiftZ coord ((k : Int) + 1) u := by
      intro k hk
      exact hscellu 1 k hk (by omega)
    rw [hBdef]
    unfold getD
    rw [s1c (shiftZ coord 1 s) hcne hoffu]
  have hmem1 : ∀ c : Coord, memD d1 c = memD d c := fun c =>
    memD_processSide d dir coord u fuel c
  have hcoord1 : memD d1 coord = true := by rw [hmem1]; exact hcoord
  have hb1 : ∀ k : Nat, k < b → memD d1 (shiftZ coord ((k : Int) + 1) s) = true := by
    intro k hk; rw [hmem1]; exact hb k hk
  have hbend1 : memD d1 (shiftZ coord ((b : Int) + 1) s) = false := by
    rw [hmem1]; exact hbend
  obtain ⟨s2a, s2b, s2c⟩ :=
    processSide_spec d1 dir coord hs fuel b hcoord1 hb1 hbend1 hfb
  have g1 : getD d2 coord dir = x + A + B := by
    rw [s2a, f1, hB1]
  have g2 : ∀ k : Nat, k < b →
      getD d2 (shiftZ coord ((k : Int) + 1) s) dir = x + A + B := by
    intro k hk
    rw [s2b k hk, f1, hB1]
  have hmem2 : ∀ c : Coord, memD d2 c = memD d c := fun c => by
    rw [memD_processSide, hmem1]
  -- chain hypotheses for the trailing re-walk, in d2
  have hrw : ∀ k : Nat, k < a → memD d2 (shiftZ (cadd coord u) (k : Int) u) = true := by
    intro k hk
    rw [shiftZ_cadd, hmem2]
    exact ha k hk
  have hrwend : memD d2 (shiftZ (cadd coord u) ((a : Nat) : Int) u) = false := by
    rw [shiftZ_cadd, hmem2]
    exact haend
  have hucell : ∀ k : Nat, shiftZ coord ((k : Int) + 1) u = shiftZ (cadd coord u) (k : Int) u := by
    intro k
    rw [shiftZ_cadd]
  rw [hpd, g1]
  refine ⟨?_, ?_, ?_, ?_⟩
  · have hoff : ∀ k : Nat, k < a → coord ≠ shiftZ (cadd coord u) (k : Int) u := by
      intro k hk
      rw [← hucell]
      intro hcon
      exact shiftZ_ne_self hu (i := (k : Int) + 1) (by omega) hcon.symm
    rw [getD_setChain_off dir (x + A + B) a d2 (cadd coord u) fuel hrw hrwend hfa
      coord hoff dir]
    exact g1
  · intro k hk
    rw [hucell k]
    exact getD_setChain_chain dir hu (x + A + B) a d2 (cadd coord u) fuel hrw hrwend
      hfa k hk
  · intro k hk
    have hoff : ∀ j : Nat, j < a →
        shiftZ coord ((k : Int) + 1) s ≠ shiftZ (cadd coord u) (j : Int) u := by
      intro j hj
      rw [← hucell]
      exact hscellu ((k : Int) + 1) j hj (by omega)
    rw [getD_setChain_off dir (x + A + B) a d2 (cadd coord u) fuel hrw hrwend hfa
      _ hoff dir]
    exact g2 k hk
  · intro c hc hoffa hoffb
    have hoff : ∀ k : Nat, k < a → c ≠ shiftZ (cadd coord u) (k : Int) u := by
      intro k hk
      rw [← hucell]
      exact hoffa k hk
    rw [lookupD_setChain_off dir (x + A + B) a d2 (cadd coord u) fuel hrw hrwend hfa
      c hoff]
    rw [s2c c hc hoffb]
    exact s1c c hc hoffa

/-- Iteration order of the per-cell record's .items() in insertKeyIntoDict:
Python dictionaries iterate in insertion order, and the default record is
written with keys upDown, leftRight, backslash, forwardslash. -/
def allDirs : List DirKey := [.upDown, .leftRight, .backslash, .forwardslash]

/-- The dictionary-updating part of insertKeyIntoDict: install the placed
cell with all four counters at 1 (setdefault), then run the per-direction
body for each of the four direction keys in iteration order.  The fuel
passed to every walk strictly exceeds the dictionary's length, hence every
membership chain, so each fuelled walk equals the source's unbounded loop. -/
def insertRun (d : MoveDict) (coord : Coord) : MoveDict :=
  let d0 := setdefaultD d coord ⟨1, 1, 1, 1⟩
  let fuel := d0.length + 1
  allDirs.foldl (fun acc dir => processDir acc dir coord fuel) d0

/-- One compare-and-replace step of the colorMax update loop:
if value > acc then acc = value. -/
def pymax (acc v : Nat) : Nat := if acc < v then v else acc

/-- The colorMax update loop at the end of insertKeyIntoDict: fold the four
counters of the placed cell, in iteration order, over the player's current
recorded maximum.  The placed cell is always present after insertRun, so the
fallback branch is unreachable there. -/
def newMax (d : MoveDict) (coord : Coord) (old : Nat) : Nat :=
  match lookupD d coord with
  | some ds =>
    pymax (pymax (pymax (pymax old ds.upDown) ds.leftRight) ds.backslash) ds.forwardslash
  | none => old

/-- The whole of insertKeyIntoDict for one player: the updated move
dictionary together with the player's updated colorMax entry. -/
def insertKeyIntoDict (d : MoveDict) (coord : Coord) (oldMax : Nat) :
    MoveDict × Nat :=
  let d1 := insertRun d coord
  (d1, newMax d1 coord oldMax)

theorem pair_fst (a : MoveDict) (b : Nat) : (a, b).1 = a := rfl

theorem pair_snd (a : MoveDict) (b : Nat) : (a, b).2 = b := rfl

theorem insertKeyIntoDict_fst (d : MoveDict) (coord : Coord) (oldMax : Nat) :
    (insertKeyIntoDict d coord oldMax).1 = insertRun d coord := by
  unfold insertKeyIntoDict
  exact pair_fst _ _

theorem insertKeyIntoDict_snd (d : MoveDict) (coord : Coord) (oldMax : Nat) :
    (insertKeyIntoDict d coord oldMax).2 = newMax (insertRun d coord) coord oldMax := by
  unfold insertKeyIntoDict
  exact pair_snd _ _

theorem Dirs.get_ones (dir : DirKey) : Dirs.get ⟨1, 1, 1, 1⟩ dir = 1 := by
  cases dir <;> rfl

theorem memD_setdefaultD (d : MoveDict) (c : Coord) (v : Dirs) (c' : Coord) :
    memD (setdefaultD d c v) c' = (memD d c' || decide (c' = c)) := by
  unfold setdefaultD
  by_cases hm : memD d c
  · rw [if_pos hm]
    by_cases hcc : c' = c
    · subst hcc
      rw [hm]
      simp
    · simp [hcc]
  · rw [if_neg hm]
    unfold memD
    cases hl : lookupD d c' with
    | some ds =>
      rw [lookupD_append_left d c c' ds hl]
      simp
    | none =>
      rw [lookupD_append_right d c c' v hl]
      by_cases hcc : c' = c
      · subst hcc; simp
      · simp [hcc]

theorem lookupD_setdefaultD_ne (d : MoveDict) (c : Coord) (v : Dirs)
    (c' : Coord) (h : c' ≠ c) :
    lookupD (setdefaultD d c v) c' = lookupD d c' := by
  unfold setdefaultD
  by_cases hm : memD d c
  · rw [if_pos hm]
  · rw [if_neg hm]
    cases hl : lookupD d c' with
    | some ds => exact lookupD_append_left d c c' ds hl _
    | none => rw [lookupD_append_right d c c' v hl, if_neg h]

theorem lookupD_setdefaultD_self (d : MoveDict) (c : Coord) (v : Dirs)
    (h : memD d c = false) : lookupD (setdefaultD d c v) c = some v := by
  unfold setdefaultD
  rw [if_neg (by rw [h]; exact Bool.false_ne_true)]
  unfold memD at h
  cases hl : lookupD d c with
  | some ds => rw [hl] at h; simp at h
  | none => rw [lookupD_append_right d c c v hl, if_pos rfl]

theorem length_setdefaultD_ge (d : MoveDict) (c : Coord) (v : Dirs) :
    d.length ≤ (setdefaultD d c v).length := by
  unfold setdefaultD
  by_cases hm : memD d c
  · rw [if_pos hm]
  · rw [if_neg hm]
    simp

theorem mem_keys_of_memD (d : MoveDict) (c : Coord) (h : memD d c = true) :
    c ∈ d.map Prod.fst := by
  induction d with
  | nil => simp [memD, lookupD] at h
  | cons hd tl ih =>
    obtain ⟨ch, dsh⟩ := hd
    by_cases hc : c = ch
    · subst hc
      simp
    · simp only [memD, lookupD, if_neg hc] at h
      simp only [List.map_cons, List.mem_cons]
      exact Or.inr (ih h)

/-- Pigeonhole bound: a chain of n distinct occupied positions along a
nonzero step cannot exceed the number of dictionary entries.  This is what
makes every while loop of insertKeyIntoDict terminate, and what lets the
fixed fuel of insertRun simulate it exactly. -/
theorem chain_le_length (d : MoveDict) (pos : Coord) {s : Coord}
    (hs : s ≠ ((0 : Int), (0 : Int))) (n : Nat)
    (h : ∀ k : Nat, k < n → memD d (shiftZ pos ((k : Int) + 1) s) = true) :
    n ≤ d.length := by
  classical
  set f : Nat → Coord := fun k => shiftZ pos ((k : Int) + 1) s with hf
  have hinj : ∀ i j : Nat, f i = f j → i = j := by
    intro i j hij
    have := shiftZ_inj hs hij
    omega
  have hcard : ((Finset.range n).image f).card = n := by
    rw [Finset.card_image_of_injOn (fun i _ j _ hij => hinj i j hij)]
    exact Finset.card_range n
  have hsub : (Finset.range n).image f ⊆ (d.map Prod.fst).toFinset := by
    intro x hx
    rw [Finset.mem_image] at hx
    obtain ⟨k, hk, rfl⟩ := hx
    rw [List.mem_toFinset]
    exact mem_keys_of_memD d (f k) (h k (Finset.mem_range.mp hk))
  calc n = ((Finset.range n).image f).card := hcard.symm
    _ ≤ (d.map Prod.fst).toFinset.card := Finset.card_le_card hsub
    _ ≤ (d.map Prod.fst).length := (d.map Prod.fst).toFinset_card_le
    _ = d.length := by rw [List.length_map]

/-- Every membership chain breaks: there is a well-defined number of
consecutive occupied cells reaching out from a position along a step. -/
theorem chain_split (d : MoveDict) (pos : Coord) {s : Coord}
    (hs : s ≠ ((0 : Int), (0 : Int))) :
    ∃ L : Nat, (∀ k : Nat, k < L → memD d (shiftZ pos ((k : Int) + 1) s) = true) ∧
      memD d (shiftZ pos ((L : Int) + 1) s) = false ∧ L ≤ d.length := by
  classical
  have hex : ∃ m : Nat, memD d (shiftZ pos ((m : Int) + 1) s) = false := by
    by_contra hcon
    push_neg at hcon
    have hall : ∀ k : Nat, k < d.length + 1 →
        memD d (shiftZ pos ((k : Int) + 1) s) = true := by
      intro k hk
      have := hcon k
      cases hmv : memD d (shiftZ pos ((k : Int) + 1) s) with
      | false => exact absurd hmv this
      | true => rfl
    have := chain_le_length d pos hs (d.length + 1) hall
    omega
  set L := Nat.find hex with hL
  refine ⟨L, ?_, Nat.find_spec hex, ?_⟩
  · intro k hk
    have := Nat.find_min hex hk
    cases hmv : memD d (shiftZ pos ((k : Int) + 1) s) with
    | false => exact absurd hmv this
    | true => rfl
  · apply chain_le_length d pos hs L
    intro k hk
    have := Nat.find_min hex hk
    cases hmv : memD d (shiftZ pos ((k : Int) + 1) s) with
    | false => exact absurd hmv this
    | true => rfl

theorem memD_foldl_processDir (coord : Coord) (fuel : Nat) :
    ∀ (l : List DirKey) (d : MoveDict) (c : Coord),
      memD (l.foldl (fun acc dir => processDir acc dir coord fuel) d) c = memD d c := by
  intro l
  induction l with
  | nil => intro d c; rfl
  | cons hd tl ih =>
    intro d c
    simp only [List.foldl_cons]
    rw [ih, memD_processDir]

theorem getD_foldl_processDir_not_mem (coord : Coord) (fuel : Nat) :
    ∀ (l : List DirKey) (dir : DirKey), dir ∉ l → ∀ (d : MoveDict) (c : Coord),
      getD (l.foldl (fun acc dir => processDir acc dir coord fuel) d) c dir
        = getD d c dir := by
  intro l
  induction l with
  | nil => intro dir _ d c; rfl
  | cons hd tl ih =>
    intro dir hmem d c
    have hne : dir ≠ hd := fun h => hmem (h ▸ List.mem_cons_self hd tl)
    have htl : dir ∉ tl := fun h => hmem (List.mem_cons_of_mem hd h)
    simp only [List.foldl_cons]
    rw [ih dir htl, getD_processDir_ne_dir _ _ _ hne]

theorem allDirs_split (dir : DirKey) :
    ∃ pre post : List DirKey,
      allDirs = pre ++ dir :: post ∧ dir ∉ pre ∧ dir ∉ post := by
  cases dir
  · exact ⟨[], [.leftRight, .backslash, .forwardslash], rfl, by simp, by simp⟩
  · exact ⟨[.upDown], [.backslash, .forwardslash], rfl, by simp, by simp⟩
  · exact ⟨[.upDown, .leftRight], [.forwardslash], rfl, by simp, by simp⟩
  · exact ⟨[.upDown, .leftRight, .backslash], [], rfl, by simp, by simp⟩

theorem memD_insertRun (d : MoveDict) (coord : Coord) (c : Coord) :
    memD (insertRun d coord) c = (memD d c || decide (c = coord)) := by
  unfold insertRun
  simp only
  rw [memD_foldl_processDir, memD_setdefaultD]

/-- Full behaviour of the dictionary part of insertKeyIntoDict on one
direction, for a placement on a free cell whose occupied chains along the
two sides of that direction's line have lengths a and b: the placed cell's
counter becomes 1 plus the two immediate neighbours' counters, every chain
cell on both sides is overwritten with the same value, and the counter of
this direction is unchanged at every other cell. -/
theorem insertRun_spec (d : MoveDict) (coord : Coord) (dir : DirKey) (a b : Nat)
    (hc : memD d coord = false)
    (ha : ∀ k : Nat, k < a →
      memD d (shiftZ coord ((k : Int) + 1) (cneg (step dir))) = true)
    (haend : memD d (shiftZ coord ((a : Int) + 1) (cneg (step dir))) = false)
    (hb : ∀ k : Nat, k < b →
      memD d (shiftZ coord ((k : Int) + 1) (step dir)) = true)
    (hbend : memD d (shiftZ coord ((b : Int) + 1) (step dir)) = false) :
    getD (insertRun d coord) coord dir
        = 1 + getD d (shiftZ coord 1 (cneg (step dir))) dir
          + getD d (shiftZ coord 1 (step dir)) dir ∧
    (∀ k : Nat, k < a →
      getD (insertRun d coord) (shiftZ coord ((k : Int) + 1) (cneg (step dir))) dir
        = 1 + getD d (shiftZ coord 1 (cneg (step dir))) dir
          + getD d (shiftZ coord 1 (step dir)) dir) ∧
    (∀ k : Nat, k < b →
      getD (insertRun d coord) (shiftZ coord ((k : Int) + 1) (step dir)) dir
        = 1 + getD d (shiftZ coord 1 (cneg (step dir))) dir
          + getD d (shiftZ coord 1 (step dir)) dir) ∧
    (∀ c : Coord, c ≠ coord →
      (∀ k : Nat, k < a → c ≠ shiftZ coord ((k : Int) + 1) (cneg (step dir))) →
      (∀ k : Nat, k < b → c ≠ shiftZ coord ((k : Int) + 1) (step dir)) →
      getD (insertRun d coord) c dir = getD d c dir) := by
  have hs : step dir ≠ ((0 : Int), (0 : Int)) := step_ne_zero dir
  have hu : cneg (step dir) ≠ ((0 : Int), (0 : Int)) := cneg_ne_zero hs
  set s := step dir with hsdef
  set u := cneg s with hudef
  set d0 := setdefaultD d coord ⟨1, 1, 1, 1⟩ with hd0def
  set fuel := d0.length + 1 with hfueldef
  have hIR : insertRun d coord
      = allDirs.foldl (fun acc dir => processDir acc dir coord fuel) d0 := rfl
  have hucne : ∀ k : Nat, shiftZ coord ((k : Int) + 1) u ≠ coord := by
    intro k
    exact shiftZ_ne_self hu (by omega)
  have hscne : ∀ k : Nat, shiftZ coord ((k : Int) + 1) s ≠ coord := by
    intro k
    exact shiftZ_ne_self hs (by omega)
  have hm0 : ∀ c : Coord, memD d0 c = (memD d c || decide (c = coord)) := by
    intro c
    rw [hd0def]
    exact memD_setdefaultD d coord _ c
  have hm0coord : memD d0 coord = true := by
    rw [hm0]
    simp
  have hg0ne : ∀ c : Coord, c ≠ coord → ∀ dir' : DirKey,
      getD d0 c dir' = getD d c dir' := by
    intro c hcn dir'
    unfold getD
    rw [hd0def, lookupD_setdefaultD_ne d coord _ c hcn]
  have hg0coord : getD d0 coord dir = 1 := by
    unfold getD
    rw [hd0def, lookupD_setdefaultD_self d coord _ hc]
    exact Dirs.get_ones dir
  have ha0 : ∀ k : Nat, k < a → memD d0 (shiftZ coord ((k : Int) + 1) u) = true := by
    intro k hk
    rw [hm0, ha k hk]
    simp
  have haend0 : memD d0 (shiftZ coord ((a : Int) + 1) u) = false := by
    rw [hm0, haend]
    simp [hucne a]
  have hb0 : ∀ k : Nat, k < b → memD d0 (shiftZ coord ((k : Int) + 1) s) = true := by
    intro k hk
    rw [hm0, hb k hk]
    simp
  have hbend0 : memD d0 (shiftZ coord ((b : Int) + 1) s) = false := by
    rw [hm0, hbend]
    simp [hscne b]
  have hfa : a ≤ fuel := by
    have h1 : a ≤ d.length := chain_le_length d coord hu a ha
    have h2 : d.length ≤ d0.length := by
      rw [hd0def]
      exact length_setdefaultD_ge d coord _
    omega
  have hfb : b ≤ fuel := by
    have h1 : b ≤ d.length := chain_le_length d coord hs b hb
    have h2 : d.length ≤ d0.length := by
      rw [hd0def]
      exact length_setdefaultD_ge d coord _
    omega
  obtain ⟨pre, post, hsplit, hpre, hpost⟩ := allDirs_split dir
  rw [hIR, hsplit, List.foldl_append, List.foldl_cons]
  set dpre := pre.foldl (fun acc dir => processDir acc dir coord fuel) d0 with hdpredef
  have hmpre : ∀ c : Coord, memD dpre c = memD d0 c := by
    intro c
    rw [hdpredef]
    exact memD_foldl_processDir coord fuel pre d0 c
  have hgpre : ∀ c : Coord, getD dpre c dir = getD d0 c dir := by
    intro c
    rw [hdpredef]
    exact getD_foldl_processDir_not_mem coord fuel pre dir hpre d0 c
  obtain ⟨p1, p2, p3, p4⟩ := processDir_spec dpre dir coord fuel a b
    (by rw [hmpre]; exact hm0coord)
    (fun k hk => by rw [hmpre]; exact ha0 k hk)
    (by rw [hmpre]; exact haend0)
    (fun k hk => by rw [hmpre]; exact hb0 k hk)
    (by rw [hmpre]; exact hbend0)
    hfa hfb
  set dmid := processDir dpre dir coord fuel with hdmiddef
  have hgpost : ∀ c : Coord,
      getD (post.foldl (fun acc dir => processDir acc dir coord fuel) dmid) c dir
        = getD dmid c dir := by
    intro c
    exact getD_foldl_processDir_not_mem coord fuel post dir hpost dmid c
  have hA : getD dpre (shiftZ coord 1 u) dir = getD d (shiftZ coord 1 u) dir := by
    rw [hgpre]
    exact hg0ne _ (shiftZ_ne_self hu (by omega)) dir
  have hB : getD dpre (shiftZ coord 1 s) dir = getD d (shiftZ coord 1 s) dir := by
    rw [hgpre]
    exact hg0ne _ (shiftZ_ne_self hs (by omega)) dir
  have hx : getD dpre coord dir = 1 := by
    rw [hgpre]
    exact hg0coord
  refine ⟨?_, ?_, ?_, ?_⟩
  · rw [hgpost, p1, hx, hA, hB]
  · intro k hk
    rw [hgpost, p2 k hk, hx, hA, hB]
  · intro k hk
    rw [hgpost, p3 k hk, hx, hA, hB]
  · intro c hcn hoffa hoffb
    rw [hgpost]
    have h1 : getD dmid c dir = getD dpre c dir := by
      unfold getD
      rw [p4 c hcn hoffa hoffb]
    rw [h1, hgpre]
    exact hg0ne c hcn dir

/-- A maximal contiguous run of n stones along step s starting at start:
n consecutive occupied cells with both flanking cells free. -/
def maxRunFrom (d : MoveDict) (s : Coord) (start : Coord) (n : Nat) : Prop :=
  0 < n ∧ (∀ k : Nat, k < n → memD d (shiftZ start (k : Int) s) = true) ∧
    memD d (shiftZ start (-1) s) = false ∧
    memD d (shiftZ start (n : Int) s) = false

/-- Run uniformity: every cell of a maximal contiguous run along a
direction's line stores the run's total stone count as its counter for that
direction. -/
def Uniform (d : MoveDict) : Prop :=
  ∀ (dir : DirKey) (start : Coord) (n : Nat),
    maxRunFrom d (step dir) start n →
    ∀ k : Nat, k < n → getD d (shiftZ start (k : Int) (step dir)) dir = n

/-- Tracker dictionaries reachable by the program: the empty dictionary
installed by clear_board, extended by insertKeyIntoDict placements on cells
that are still free.  play_cmd reaches insertKeyIntoDict only after
board.play_move succeeded on an Empty cell, and a cell becomes a key of a
player's dictionary only when that player occupies it, so every placement
recorded in a game satisfies the freeness side condition.  The dictionary
component of insertKeyIntoDict is insertRun. -/
inductive Reachable : MoveDict → Prop where
  | nil : Reachable []
  | step {d : MoveDict} {coord : Coord} (h : Reachable d)
      (hfree : memD d coord = false) : Reachable (insertRun d coord)

theorem memD_nil (c : Coord) : memD [] c = false := rfl

theorem uniform_nil : Uniform [] := by
  intro dir start n hrun k hk
  have := hrun.2.1 0 hrun.1
  rw [memD_nil] at this
  exact absurd this (by simp)

theorem chain_len_unique {d : MoveDict} {pos s : Coord} {L1 L2 : Nat}
    (h1 : ∀ k : Nat, k < L1 → memD d (shiftZ pos ((k : Int) + 1) s) = true)
    (h1e : memD d (shiftZ pos ((L1 : Int) + 1) s) = false)
    (h2 : ∀ k : Nat, k < L2 → memD d (shiftZ pos ((k : Int) + 1) s) = true)
    (h2e : memD d (shiftZ pos ((L2 : Int) + 1) s) = false) : L1 = L2 := by
  by_contra hne
  rcases Nat.lt_or_ge L1 L2 with h | h
  · have := h2 L1 h
    rw [h1e] at this
    exact absurd this (by simp)
  · have hlt : L2 < L1 := by omega
    have := h1 L2 hlt
    rw [h2e] at this
    exact absurd this (by simp)

theorem memD_insertRun_of_mem (d : MoveDict) (coord c : Coord)
    (h : memD d c = true) : memD (insertRun d coord) c = true := by
  rw [memD_insertRun, h]
  simp

theorem memD_insertRun_coord (d : MoveDict) (coord : Coord) :
    memD (insertRun d coord) coord = true := by
  rw [memD_insertRun]
  simp

theorem memD_of_insertRun_mem (d : MoveDict) (coord c : Coord)
    (h : memD (insertRun d coord) c = true) (hne : c ≠ coord) :
    memD d c = true := by
  rw [memD_insertRun] at h
  simpa [hne] using h

theorem memD_of_insertRun_not_mem (d : MoveDict) (coord c : Coord)
    (h : memD (insertRun d coord) c = false) : memD d c = false := by
  rw [memD_insertRun] at h
  rcases Bool.or_eq_false_iff.mp h with ⟨h1, _⟩
  exact h1

theorem shiftZ_idx (p : Coord) (s : Coord) {i j : Int} (h : i = j) :
    shiftZ p i s = shiftZ p j s := by rw [h]

/-- Under run uniformity, the counter stored at the immediate first-side
neighbour of a free cell equals the length of the occupied chain on that
side (and the absent neighbour of an empty chain contributes 0). -/
theorem stored_left (d : MoveDict) (dir : DirKey) (hU : Uniform d)
    (coord : Coord) (hfree : memD d coord = false) (a : Nat)
    (ha : ∀ k : Nat, k < a →
      memD d (shiftZ coord ((k : Int) + 1) (cneg (step dir))) = true)
    (haend : memD d (shiftZ coord ((a : Int) + 1) (cneg (step dir))) = false) :
    getD d (shiftZ coord 1 (cneg (step dir))) dir = a := by
  have hs : step dir ≠ ((0 : Int), (0 : Int)) := step_ne_zero dir
  set s := step dir with hsdef
  set u := cneg s with hudef
  cases a with
  | zero =>
    have h1 : memD d (shiftZ coord 1 u) = false := by
      have := haend
      rwa [shiftZ_idx coord u (i := ((0 : Nat) : Int) + 1) (j := 1) (by norm_num)]
        at this
    exact getD_eq_zero_of_not_mem d _ dir h1
  | succ a' =>
    set a := a' + 1 with hadef
    have hrun : maxRunFrom d s (shiftZ coord ((a : Int)) u) a := by
      refine ⟨by omega, ?_, ?_, ?_⟩
      · intro k hk
        have hcell : shiftZ (shiftZ coord ((a : Int)) u) ((k : Int)) s
            = shiftZ coord (((a - k - 1 : Nat) : Int) + 1) u := by
          rw [hudef, shiftZ_cneg, shiftZ_shiftZ, shiftZ_cneg]
          exact shiftZ_idx coord s (by omega)
        rw [hcell]
        exact ha (a - k - 1) (by omega)
      · have hcell : shiftZ (shiftZ coord ((a : Int)) u) (-1) s
            = shiftZ coord ((a : Int) + 1) u := by
          rw [hudef, shiftZ_cneg, shiftZ_shiftZ, shiftZ_cneg]
          exact shiftZ_idx coord s (by omega)
        rw [hcell]
        exact haend
      · have hcell : shiftZ (shiftZ coord ((a : Int)) u) ((a : Int)) s = coord := by
          rw [hudef, shiftZ_cneg, shiftZ_shiftZ]
          rw [shiftZ_idx coord s (i := -(a : Int) + (a : Int)) (j := 0) (by omega)]
          exact shiftZ_zero coord s
        rw [hcell]
        exact hfree
    have hval := hU dir (shiftZ coord ((a : Int)) u) a hrun (a - 1) (by omega)
    have hcell : shiftZ (shiftZ coord ((a : Int)) u) (((a - 1 : Nat) : Int)) s
        = shiftZ coord 1 u := by
      rw [hudef, shiftZ_cneg, shiftZ_shiftZ, shiftZ_cneg]
      exact shiftZ_idx coord s (by omega)
    rw [hcell] at hval
    exact hval

/-- Under run uniformity, the counter stored at the immediate second-side
neighbour of a free cell equals the length of the occupied chain on that
side (0 when the chain is empty). -/
theorem stored_right (d : MoveDict) (dir : DirKey) (hU : Uniform d)
    (coord : Coord) (hfree : memD d coord = false) (b : Nat)
    (hb : ∀ k : Nat, k < b →
      memD d (shiftZ coord ((k : Int) + 1) (step dir)) = true)
    (hbend : memD d (shiftZ coord ((b : Int) + 1) (step dir)) = false) :
    getD d (shiftZ coord 1 (step dir)) dir = b := by
  have hs : step dir ≠ ((0 : Int), (0 : Int)) := step_ne_zero dir
  set s := step dir with hsdef
  cases b with
  | zero =>
    have h1 : memD d (shiftZ coord 1 s) = false := by
      have := hbend
      rwa [shiftZ_idx coord s (i := ((0 : Nat) : Int) + 1) (j := 1) (by norm_num)]
        at this
    exact getD_eq_zero_of_not_mem d _ dir h1
  | succ b' =>
    set b := b' + 1 with hbdef
    have hrun : maxRunFrom d s (shiftZ coord 1 s) b := by
      refine ⟨by omega, ?_, ?_, ?_⟩
      · intro k hk
        have hcell : shiftZ (shiftZ coord 1 s) ((k : Int)) s
            = shiftZ coord ((k : Int) + 1) s := by
          rw [shiftZ_shiftZ]
          exact shiftZ_idx coord s (by omega)
        rw [hcell]
        exact hb k hk
      · have hcell : shiftZ (shiftZ coord 1 s) (-1) s = coord := by
          rw [shiftZ_shiftZ]
          rw [shiftZ_idx coord s (i := 1 + (-1 : Int)) (j := 0) (by omega)]
          exact shiftZ_zero coord s
        rw [hcell]
        exact hfree
      · have hcell : shiftZ (shiftZ coord 1 s) ((b : Int)) s
            = shiftZ coord ((b : Int) + 1) s := by
          rw [shiftZ_shiftZ]
          exact shiftZ_idx coord s (by omega)
        rw [hcell]
        exact hbend
    have hval := hU dir (shiftZ coord 1 s) b hrun 0 (by omega)
    have hcell : shiftZ (shiftZ coord 1 s) (((0 : Nat) : Int)) s = shiftZ coord 1 s := by
      exact shiftZ_natCast_zero _ s
    rw [hcell] at hval
    exact hval

/-- Invariant preservation, case where the maximal run of the new state
contains the placed cell: the run is exactly the merge of the placed cell
with its two old side chains, and every cell of it now stores the merged
count. -/
theorem uniform_insert_in (d : MoveDict) (coord : Coord) (hU : Uniform d)
    (hfree : memD d coord = false) (dir : DirKey) (start : Coord) (n : Nat)
    (hrun : maxRunFrom (insertRun d coord) (step dir) start n)
    (i : Nat) (hi : i < n) (hieq : shiftZ start ((i : Int)) (step dir) = coord) :
    ∀ k : Nat, k < n →
      getD (insertRun d coord) (shiftZ start ((k : Int)) (step dir)) dir = n := by
  have hs : step dir ≠ ((0 : Int), (0 : Int)) := step_ne_zero dir
  have hu : cneg (step dir) ≠ ((0 : Int), (0 : Int)) := cneg_ne_zero hs
  set s := step dir with hsdef
  set u := cneg s with hudef
  obtain ⟨hn, hmem', hleft', hright'⟩ := hrun
  have hconv : ∀ t : Int, shiftZ coord t s = shiftZ start ((i : Int) + t) s := by
    intro t
    rw [← hieq, shiftZ_shiftZ]
  have hucell : ∀ t : Int, shiftZ coord t u = shiftZ start ((i : Int) - t) s := by
    intro t
    rw [hudef, shiftZ_cneg, hconv]
    exact shiftZ_idx start s (by omega)
  -- the chains of d on the two sides of coord have lengths exactly i and n-1-i
  have haI : ∀ k : Nat, k < i → memD d (shiftZ coord ((k : Int) + 1) u) = true := by
    intro k hk
    have hcell : shiftZ coord ((k : Int) + 1) u = shiftZ start (((i - k - 1 : Nat) : Int)) s := by
      rw [hucell]
      exact shiftZ_idx start s (by omega)
    rw [hcell]
    apply memD_of_insertRun_mem d coord _ (hmem' (i - k - 1) (by omega))
    rw [← hieq]
    intro hcon
    have := shiftZ_inj hs hcon
    omega
  have haendI : memD d (shiftZ coord ((i : Int) + 1) u) = false := by
    have hcell : shiftZ coord ((i : Int) + 1) u = shiftZ start (-1) s := by
      rw [hucell]
      exact shiftZ_idx start s (by omega)
    rw [hcell]
    exact memD_of_insertRun_not_mem d coord _ hleft'
  have hbI : ∀ k : Nat, k < n - 1 - i →
      memD d (shiftZ coord ((k : Int) + 1) s) = true := by
    intro k hk
    have hcell : shiftZ coord ((k : Int) + 1) s = shiftZ start (((i + k + 1 : Nat) : Int)) s := by
      rw [hconv]
      exact shiftZ_idx start s (by omega)
    rw [hcell]
    apply memD_of_insertRun_mem d coord _ (hmem' (i + k + 1) (by omega))
    rw [← hieq]
    intro hcon
    have := shiftZ_inj hs hcon
    omega
  have hbendI : memD d (shiftZ coord (((n - 1 - i : Nat) : Int) + 1) s) = false := by
    have hcell : shiftZ coord (((n - 1 - i : Nat) : Int) + 1) s = shiftZ start ((n : Int)) s := by
      rw [hconv]
      exact shiftZ_idx start s (by omega)
    rw [hcell]
    exact memD_of_insertRun_not_mem d coord _ hright'
  obtain ⟨a, ha, haend, hale⟩ := chain_split d coord (s := u) hu
  obtain ⟨b, hb, hbend, hble⟩ := chain_split d coord (s := s) hs
  have haeq : a = i := chain_len_unique ha haend haI haendI
  have hbeq : b = n - 1 - i := chain_len_unique hb hbend hbI hbendI
  obtain ⟨q1, q2, q3, q4⟩ := insertRun_spec d coord dir a b hfree ha haend hb hbend
  have hA : getD d (shiftZ coord 1 u) dir = a := stored_left d dir hU coord hfree a ha haend
  have hB : getD d (shiftZ coord 1 s) dir = b := stored_right d dir hU coord hfree b hb hbend
  have hv : 1 + getD d (shiftZ coord 1 u) dir + getD d (shiftZ coord 1 s) dir = n := by
    rw [hA, hB]
    omega
  intro k hk
  rcases Nat.lt_trichotomy k i with hki | hki | hki
  · -- cell on the first side of the placement
    have hcell : shiftZ start ((k : Int)) s = shiftZ coord (((i - k - 1 : Nat) : Int) + 1) u := by
      rw [hucell]
      exact shiftZ_idx start s (by omega)
    rw [hcell, q2 (i - k - 1) (by omega), hv]
  · -- the placed cell itself
    have hcell : shiftZ start ((k : Int)) s = coord := by
      rw [← hieq]
      exact shiftZ_idx start s (by omega)
    rw [hcell, q1, hv]
  · -- cell on the second side of the placement
    have hcell : shiftZ start ((k : Int)) s = shiftZ coord (((k - i - 1 : Nat) : Int) + 1) s := by
      rw [hconv]
      exact shiftZ_idx start s (by omega)
    rw [hcell, q3 (k - i - 1) (by omega), hv]

/-- Invariant preservation, case where the maximal run of the new state does
not contain the placed cell: the run was already maximal before the
placement and none of its cells is touched by the update. -/
theorem uniform_insert_out (d : MoveDict) (coord : Coord) (hU : Uniform d)
    (hfree : memD d coord = false) (dir : DirKey) (start : Coord) (n : Nat)
    (hrun : maxRunFrom (insertRun d coord) (step dir) start n)
    (hnotin : ∀ i : Nat, i < n → shiftZ start ((i : Int)) (step dir) ≠ coord) :
    ∀ k : Nat, k < n →
      getD (insertRun d coord) (shiftZ start ((k : Int)) (step dir)) dir = n := by
  have hs : step dir ≠ ((0 : Int), (0 : Int)) := step_ne_zero dir
  have hu : cneg (step dir) ≠ ((0 : Int), (0 : Int)) := cneg_ne_zero hs
  set s := step dir with hsdef
  set u := cneg s with hudef
  obtain ⟨hn, hmem', hleft', hright'⟩ := hrun
  have hdmem : ∀ j : Nat, j < n → memD d (shiftZ start ((j : Int)) s) = true := by
    intro j hj
    exact memD_of_insertRun_mem d coord _ (hmem' j hj) (hnotin j hj)
  have hdleft : memD d (shiftZ start (-1) s) = false :=
    memD_of_insertRun_not_mem d coord _ hleft'
  have hdright : memD d (shiftZ start ((n : Int)) s) = false :=
    memD_of_insertRun_not_mem d coord _ hright'
  have hrund : maxRunFrom d s start n := ⟨hn, hdmem, hdleft, hdright⟩
  have hold := hU dir start n hrund
  obtain ⟨a, ha, haend, hale⟩ := chain_split d coord (s := u) hu
  obtain ⟨b, hb, hbend, hble⟩ := chain_split d coord (s := s) hs
  obtain ⟨q1, q2, q3, q4⟩ := insertRun_spec d coord dir a b hfree ha haend hb hbend
  intro k hk
  have hne : shiftZ start ((k : Int)) s ≠ coord := hnotin k hk
  have hoffa : ∀ j : Nat, j < a →
      shiftZ start ((k : Int)) s ≠ shiftZ coord ((j : Int) + 1) u := by
    intro j hj hcon
    -- the run cell would sit on the first-side chain of the placement, so
    -- coord would lie further along the run's own line
    have hcoord : coord = shiftZ start ((k : Int) + (j : Int) + 1) s := by
      have h1 : shiftZ coord ((j : Int) + 1) u = shiftZ coord (-((j : Int) + 1)) s := by
        rw [hudef, shiftZ_cneg]
      rw [h1] at hcon
      have h2 : shiftZ (shiftZ coord (-((j : Int) + 1)) s) ((j : Int) + 1) s = coord := by
        rw [shiftZ_shiftZ]
        rw [shiftZ_idx coord s (i := -((j : Int) + 1) + ((j : Int) + 1)) (j := 0) (by omega)]
        exact shiftZ_zero coord s
      rw [← h2, ← hcon, shiftZ_shiftZ]
      exact shiftZ_idx start s (by omega)
    rcases Nat.lt_or_ge (k + j + 1) n with he | he
    · exact hnotin (k + j + 1) he (by
        rw [hcoord]
        exact shiftZ_idx start s (by omega))
    · rcases Nat.eq_or_lt_of_le he with he0 | he1
      · -- coord would be the run's right boundary cell, which is free in the
        -- new state, yet the placed cell is always a key afterwards
        have hb1 : shiftZ start ((n : Int)) s = coord := by
          rw [hcoord]
          exact shiftZ_idx start s (by omega)
        rw [hb1, memD_insertRun_coord] at hright'
        exact absurd hright' (by simp)
      · -- the run's right boundary cell would sit inside the first-side
        -- chain, hence be occupied, contradicting maximality
        have ht : k + j - n < a := by omega
        have hb1 : shiftZ start ((n : Int)) s
            = shiftZ coord (((k + j - n : Nat) : Int) + 1) u := by
          have h1 : shiftZ coord (((k + j - n : Nat) : Int) + 1) u
              = shiftZ coord (-(((k + j - n : Nat) : Int) + 1)) s := by
            rw [hudef, shiftZ_cneg]
          rw [h1, hcoord, shiftZ_shiftZ]
          exact shiftZ_idx start s (by omega)
        have := ha (k + j - n) ht
        rw [← hb1] at this
        have := memD_insertRun_of_mem d coord _ this
        rw [this] at hright'
        exact absurd hright' (by simp)
  have hoffb : ∀ j : Nat, j < b →
      shiftZ start ((k : Int)) s ≠ shiftZ coord ((j : Int) + 1) s := by
    intro j hj hcon
    have hcoord : coord = shiftZ start ((k : Int) - (j : Int) - 1) s := by
      have h2 : shiftZ (shiftZ coord ((j : Int) + 1) s) (-((j : Int) + 1)) s = coord := by
        rw [shiftZ_shiftZ]
        rw [shiftZ_idx coord s (i := ((j : Int) + 1) + -((j : Int) + 1)) (j := 0) (by omega)]
        exact shiftZ_zero coord s
      rw [← h2, ← hcon, shiftZ_shiftZ]
      exact shiftZ_idx start s (by omega)
    rcases Int.lt_or_le ((k : Int) - (j : Int) - 1) 0 with he | he
    · rcases Int.lt_or_le ((k : Int) - (j : Int) - 1) (-1) with he1 | he1
      · -- the run's left boundary cell would sit inside the second-side
        -- chain, hence be occupied, contradicting maximality
        have ht : j - k - 1 < b := by omega
        have hb1 : shiftZ start (-1) s
            = shiftZ coord (((j - k - 1 : Nat) : Int) + 1) s := by
          rw [hcoord, shiftZ_shiftZ]
          exact shiftZ_idx start s (by omega)
        have := hb (j - k - 1) ht
        rw [← hb1] at this
        have := memD_insertRun_of_mem d coord _ this
        rw [this] at hleft'
        exact absurd hleft' (by simp)
      · -- coord would be the run's left boundary cell, which is free in the
        -- new state, yet the placed cell is always a key afterwards
        have hb1 : shiftZ start (-1) s = coord := by
          rw [hcoord]
          exact shiftZ_idx start s (by omega)
        rw [hb1, memD_insertRun_coord] at hleft'
        exact absurd hleft' (by simp)
    · have hlt : k - j - 1 < n := by omega
      refine hnotin (k - j - 1) hlt ?_
      rw [hcoord]
      exact shiftZ_idx start s (by omega)
  rw [q4 (shiftZ start ((k : Int)) s) hne hoffa hoffb]
  exact hold k hk

/-- Invariant preservation: one placement of insertKeyIntoDict on a free
cell keeps run uniformity. -/
theorem uniform_insert (d : MoveDict) (coord : Coord) (hU : Uniform d)
    (hfree : memD d coord = false) : Uniform (insertRun d coord) := by
  intro dir start n hrun k hk
  by_cases hex : ∃ i : Nat, i < n ∧ shiftZ start ((i : Int)) (step dir) = coord
  · obtain ⟨i, hi, hieq⟩ := hex
    exact uniform_insert_in d coord hU hfree dir start n hrun i hi hieq k hk
  · push_neg at hex
    exact uniform_insert_out d coord hU hfree dir start n hrun hex k hk

/-- Every reachable tracker dictionary satisfies run uniformity. -/
theorem reachable_uniform {d : MoveDict} (h : Reachable d) : Uniform d := by
  induction h with
  | nil => exact uniform_nil
  | step h hfree ih => exact uniform_insert _ _ ih hfree

theorem le_newMax (d : MoveDict) (c : Coord) (old : Nat) : old ≤ newMax d c old := by
  unfold newMax
  cases lookupD d c with
  | none => exact Nat.le_refl old
  | some ds =>
    simp only [pymax]
    split_ifs <;> omega

theorem getD_le_newMax (d : MoveDict) (c : Coord) (old : Nat) (dir : DirKey) :
    getD d c dir ≤ newMax d c old := by
  unfold getD newMax
  cases lookupD d c with
  | none => exact Nat.zero_le old
  | some ds =>
    cases dir <;> (simp only [Dirs.get, pymax]; split_ifs <;> omega)

instance maxRunFromDecidable (d : MoveDict) (s start : Coord) (n : Nat) :
    Decidable (maxRunFrom d s start n) :=
  decidable_of_iff
    (0 < n ∧ (∀ k : Nat, k < n → memD d (shiftZ start ((k : Int)) s) = true) ∧
      memD d (shiftZ start (-1) s) = false ∧
      memD d (shiftZ start ((n : Int)) s) = false) Iff.rfl

/-- C1.  Merge correctness of insertKeyIntoDict: if a player places on a
free cell whose two sides along a direction carry separate runs of that
player of lengths L1 and L2 (each side an occupied chain of exactly that
length whose immediate neighbour stores that length, as the tracker
invariant guarantees), then after the single insertKeyIntoDict call the
placed cell stores L1 + L2 + 1 for that direction and the player's recorded
maximum (the colorMax entry returned by the call) is at least L1 + L2 + 1. -/
theorem insertKeyIntoDict_merges_runs (d : MoveDict) (coord : Coord)
    (dir : DirKey) (L1 L2 : Nat) (oldMax : Nat)
    (hfree : memD d coord = false)
    (hL1 : 1 ≤ L1) (hL2 : 1 ≤ L2)
    (h1 : ∀ k : Nat, k < L1 →
      memD d (shiftZ coord ((k : Int) + 1) (cneg (step dir))) = true)
    (h1e : memD d (shiftZ coord ((L1 : Int) + 1) (cneg (step dir))) = false)
    (h1v : getD d (shiftZ coord 1 (cneg (step dir))) dir = L1)
    (h2 : ∀ k : Nat, k < L2 →
      memD d (shiftZ coord ((k : Int) + 1) (step dir)) = true)
    (h2e : memD d (shiftZ coord ((L2 : Int) + 1) (step dir)) = false)
    (h2v : getD d (shiftZ coord 1 (step dir)) dir = L2) :
    getD (insertKeyIntoDict d coord oldMax).1 coord dir = L1 + L2 + 1 ∧
    L1 + L2 + 1 ≤ (insertKeyIntoDict d coord oldMax).2 := by
  obtain ⟨q1, _, _, _⟩ := insertRun_spec d coord dir L1 L2 hfree h1 h1e h2 h2e
  have hval : getD (insertRun d coord) coord dir = L1 + L2 + 1 := by
    rw [q1, h1v, h2v]
    omega
  rw [insertKeyIntoDict_fst, insertKeyIntoDict_snd]
  constructor
  · exact hval
  · have hle := getD_le_newMax (insertRun d coord) coord oldMax dir
    rw [hval] at hle
    exact hle

theorem insertKeyIntoDict_merges_runs_witness :
    getD (insertKeyIntoDict
        [((1, 1), ⟨1, 2, 1, 1⟩), ((1, 2), ⟨1, 2, 1, 1⟩),
         ((1, 4), ⟨1, 2, 1, 1⟩), ((1, 5), ⟨1, 2, 1, 1⟩)]
        (1, 3) 2).1 (1, 3) DirKey.leftRight = 2 + 2 + 1 ∧
    2 + 2 + 1 ≤ (insertKeyIntoDict
        [((1, 1), ⟨1, 2, 1, 1⟩), ((1, 2), ⟨1, 2, 1, 1⟩),
         ((1, 4), ⟨1, 2, 1, 1⟩), ((1, 5), ⟨1, 2, 1, 1⟩)]
        (1, 3) 2).2 :=
  insertKeyIntoDict_merges_runs
    [((1, 1), ⟨1, 2, 1, 1⟩), ((1, 2), ⟨1, 2, 1, 1⟩),
     ((1, 4), ⟨1, 2, 1, 1⟩), ((1, 5), ⟨1, 2, 1, 1⟩)]
    (1, 3) DirKey.leftRight 2 2 2 (by decide) (by decide) (by decide)
    (by decide) (by decide) (by decide) (by decide) (by decide) (by decide)

/-- C2.  Run uniformity of every reachable tracker state: for every
dictionary built by a sequence of insertKeyIntoDict placements on free
cells starting from the empty dictionary of clear_board, for every
direction, every cell of a maximal contiguous run of the player's stones
along that direction stores the same counter for that direction, equal to
the total number of stones of the run; in particular this holds again after
a placement that bridges two previously separate runs. -/
theorem reachable_run_uniformity (d : MoveDict) (h : Reachable d)
    (dir : DirKey) (start : Coord) (n : Nat)
    (hrun : maxRunFrom d (step dir) start n) :
    ∀ k : Nat, k < n → getD d (shiftZ start ((k : Int)) (step dir)) dir = n :=
  reachable_uniform h dir start n hrun

set_option maxHeartbeats 1000000 in
theorem reachable_run_uniformity_witness :
    getD (insertRun (insertRun (insertRun [] (1, 1)) (1, 3)) (1, 2))
      (shiftZ (1, 1) ((1 : Nat) : Int) (step DirKey.leftRight)) DirKey.leftRight = 3 :=
  reachable_run_uniformity
    (insertRun (insertRun (insertRun [] (1, 1)) (1, 3)) (1, 2))
    (Reachable.step (Reachable.step (Reachable.step Reachable.nil (by decide))
      (by decide)) (by decide))
    DirKey.leftRight (1, 1) 3 (by decide) 1 (by decide)

/-- C5.  Monotonicity of the recorded maximum: a single insertKeyIntoDict
placement never decreases the player's colorMax entry (the update loop only
replaces it with strictly larger counters). -/
theorem colorMax_monotone (d : MoveDict) (coord : Coord) (oldMax : Nat) :
    oldMax ≤ (insertKeyIntoDict d coord oldMax).2 := by
  rw [insertKeyIntoDict_snd]
  exact le_newMax (insertRun d coord) coord oldMax

/-- The color codes of board_util (EMPTY, BLACK, WHITE, BORDER). -/
inductive GoColor where
  | EMPTY
  | BLACK
  | WHITE
  | BORDER
deriving DecidableEq, Repr

/-- Modelled from the spec: GoBoardUtil.opponent of board_util.py swaps the
two players; it is only ever applied to player colors. -/
def opponent : GoColor → GoColor
  | .BLACK => .WHITE
  | .WHITE => .BLACK
  | c => c

/-- Modelled from the spec: MAXSIZE of board_util.py, the largest supported
board size, suggested as 25 by the specification. -/
def MAXSIZE : Nat := 25

/-- A move handed to the board: the PASS sentinel or a board point.  The
source linearises (row, col) with coord_to_point of board_util.py before
calling the board; the embedding keeps the (row, col) pair, onto which
point_to_coord maps linear points back bijectively for a fixed size. -/
inductive Move where
  | pass
  | point (c : Coord)
deriving DecidableEq, Repr

/-- Modelled from the spec: the board object of board_util.py as consumed
by gtp_connection.py: per-cell occupancy, the board size and the player to
move. -/
structure Board where
  size : Nat
  cells : Coord → GoColor
  current_player : GoColor

/-- Modelled from the spec: GoBoard.reset(size) reallocates an empty board
with Black to move; InvalidSizeError outside [2, MAXSIZE] leaves the game
state untouched. -/
def Board.reset (bd : Board) (size : Nat) : Except String Board :=
  if 2 ≤ size ∧ size ≤ MAXSIZE then
    Except.ok { size := size, cells := fun _ => GoColor.EMPTY,
                current_player := GoColor.BLACK }
  else Except.error "InvalidSizeError"

/-- Modelled from the spec: GoBoard.play_move places a stone on an Empty
cell, reports failure on an occupied cell leaving the board unchanged, and
accepts a pass without any occupancy change.  Turn alternation is left to
the caller, which is why play_cmd flips current_player itself on a pass. -/
def Board.play_move (bd : Board) (m : Move) (color : GoColor) : Bool × Board :=
  match m with
  | .pass => (true, bd)
  | .point c =>
    if bd.cells c = GoColor.EMPTY then
      (true, { bd with cells := fun c' => if c' = c then color else bd.cells c' })
    else (false, bd)

/-- Modelled from the spec: GoBoard.get_empty_points lists the Empty
in-bounds points, rows and columns running 1..size. -/
def Board.get_empty_points (bd : Board) : List Coord :=
  ((List.range bd.size).map (fun (r : Nat) =>
    (List.range bd.size).filterMap (fun (c : Nat) =>
      if bd.cells (((r : Int) + 1), ((c : Int) + 1)) = GoColor.EMPTY
      then some (((r : Int) + 1), ((c : Int) + 1)) else none))).flatten

/-- Modelled from the spec: GoBoard.is_legal holds exactly for in-bounds
Empty cells (legal-move enumeration returns every Empty cell); a pass is
accepted. -/
def Board.is_legal (bd : Board) (m : Move) (_color : GoColor) : Bool :=
  match m with
  | .pass => true
  | .point c =>
    decide (1 ≤ c.1) && decide (c.1 ≤ (bd.size : Int)) &&
    decide (1 ≤ c.2) && decide (c.2 ≤ (bd.size : Int)) &&
    decide (bd.cells c = GoColor.EMPTY)

/-- The colorMax dictionary of the connection: the recorded maximum run of
each player, keyed by the color characters b and w. -/
structure ColorMax where
  b : Nat
  w : Nat
deriving DecidableEq, Repr

/-- The connection state read and written by the game commands.  The
constructor sets blackMax, whiteMax and the two move dictionaries to None;
colorMax is not assigned at all before clear_board_cmd runs, so it is an
Option whose none stands for the absent attribute, whose access raises
AttributeError. -/
structure ConnState where
  board : Board
  blackMax : Option Nat
  whiteMax : Option Nat
  dictStoreWhiteMove : Option MoveDict
  dictStoreBlackMove : Option MoveDict
  colorMax : Option ColorMax

/-- The connection state right after GtpConnection.__init__. -/
def initConn (bd : Board) : ConnState :=
  { board := bd, blackMax := none, whiteMax := none,
    dictStoreWhiteMove := none, dictStoreBlackMove := none, colorMax := none }

/-- Python str.lower on the ASCII command arguments. -/
def pyLower (s : String) : String := String.mk (s.data.map Char.toLower)

/-- Python str.upper on the ASCII responses. -/
def pyUpper (s : String) : String := String.mk (s.data.map Char.toUpper)

/-- The column letters of format_point: a..z with i skipped. -/
def column_letters : String := "abcdefghjklmnopqrstuvwxyz"

/-- Python sequence indexing, with a negative index counting from the end,
as column_letters[col - 1] does for col = 0. -/
def pyIndex (l : List Char) (i : Int) : Char :=
  if 0 ≤ i then l.getD i.toNat '?' else l.getD (l.length - (-i).toNat) '?'

/-- format_point: render a (row, col) move as a letter-number string such
as a1, or the literal pass; ValueError when a component is outside
0 <= x < MAXSIZE. -/
def format_point (m : Move) : Except String String :=
  match m with
  | .pass => .ok "pass"
  | .point rc =>
    if 0 ≤ rc.1 ∧ rc.1 < (MAXSIZE : Int) ∧ 0 ≤ rc.2 ∧ rc.2 < (MAXSIZE : Int) then
      .ok (String.mk [pyIndex column_letters.data (rc.2 - 1)] ++ Nat.repr rc.1.toNat)
    else .error "ValueError"

/-- Accumulate the decimal digits of a Python int literal; none on an empty
or non-digit string. -/
def digitsToNatAux : Option Nat → List Char → Option Nat
  | acc, [] => acc
  | acc, c :: rest =>
    if 48 ≤ c.toNat ∧ c.toNat ≤ 57 then
      match acc with
      | none => digitsToNatAux (some (c.toNat - 48)) rest
      | some n => digitsToNatAux (some (n * 10 + (c.toNat - 48))) rest
    else none

/-- The digits of a decimal numeral. -/
def digitsToNat (l : List Char) : Option Nat := digitsToNatAux none l

/-- Python int() on the row part of a point string: an optional sign
followed by at least one digit. -/
def pyInt (l : List Char) : Option Int :=
  match l with
  | '-' :: rest => (digitsToNat rest).map (fun n => -(n : Int))
  | '+' :: rest => (digitsToNat rest).map (fun n => (n : Int))
  | _ => (digitsToNat l).map (fun n => (n : Int))

/-- The try block of move_to_coord: the column from the first character
(letters a..z except i, codepoints compared exactly as Python compares the
one-character strings, with a..h shifted up by one) and the row from the
remaining characters via int(), rejecting rows below 1; none models the
caught IndexError / ValueError. -/
def parse_rc (chars : List Char) : Option (Int × Int) :=
  match chars with
  | [] => none
  | c0 :: rest =>
    if (97 ≤ c0.toNat ∧ c0.toNat ≤ 122) ∧ c0.toNat ≠ 105 then
      match pyInt rest with
      | none => none
      | some row =>
        if row < 1 then none
        else
          some (row, if c0.toNat < 105 then ((c0.toNat : Int) - 97) + 1
                     else (c0.toNat : Int) - 97)
    else none

/-- Result of move_to_coord: the PASS sentinel or a coordinate pair. -/
inductive ParsedMove where
  | pass
  | coord (c : Coord)
deriving DecidableEq, Repr

/-- move_to_coord: convert a GTP point string to a (row, col) pair in range
1..board_size, with an error for a malformed string or an off-board
point. -/
def move_to_coord (point_str : String) (board_size : Nat) :
    Except String ParsedMove :=
  if ¬ (2 ≤ board_size ∧ board_size ≤ MAXSIZE) then
    .error "board_size out of range"
  else
    let s := pyLower point_str
    if s = "pass" then .ok .pass
    else
      match parse_rc s.data with
      | none => .error ("invalid point: " ++ s)
      | some rc =>
        if ¬ (rc.2 ≤ (board_size : Int) ∧ rc.1 ≤ (board_size : Int)) then
          .error ("point off board: " ++ s)
        else .ok (.coord rc)

/-- color_to_int of gtp_connection.py: the color dictionary with keys b, w,
e and BORDER; none models the KeyError for any other string. -/
def color_to_int (c : String) : Option GoColor :=
  if c = "b" then some .BLACK
  else if c = "w" then some .WHITE
  else if c = "e" then some .EMPTY
  else if c = "BORDER" then some .BORDER
  else none

/-- clear_board_cmd: reset the board to its current size and re-create the
run tracker: fresh empty move dictionaries for both players and a colorMax
of 0 for both color keys. -/
def clear_board_cmd (st : ConnState) : String × ConnState :=
  match st.board.reset st.board.size with
  | .ok bd =>
    ("", { st with
             board := bd,
             dictStoreWhiteMove := some [],
             dictStoreBlackMove := some [],
             colorMax := some ⟨0, 0⟩ })
  | .error e => (e, st)

/-- boardsize_cmd: reset the board to the new size; this handler does not
touch the move dictionaries or colorMax. -/
def boardsize_cmd (st : ConnState) (n : Nat) : String × ConnState :=
  match st.board.reset n with
  | .ok bd => ("", { st with board := bd })
  | .error e => (e, st)

/-- gogui-rules_final_result: report draw as soon as no Empty point is
left, and only otherwise compare the recorded maxima against 5, white
first; the error value models the uncaught AttributeError when colorMax
was never created. -/
def gogui_rules_final_result_cmd (st : ConnState) : Except String String :=
  if (st.board.get_empty_points).length = 0 then .ok "draw"
  else
    match st.colorMax with
    | none => .error "AttributeError: colorMax"
    | some cm =>
      if 5 ≤ cm.w then .ok "white win"
      else if 5 ≤ cm.b then .ok "black win"
      else .ok "unknown"

/-- Python string comparison: lexicographic on code points. -/
def charListLe : List Char → List Char → Bool
  | [], _ => true
  | _ :: _, [] => false
  | a :: restA, b :: restB =>
    if a.toNat < b.toNat then true
    else if b.toNat < a.toNat then false
    else charListLe restA restB

/-- Insert a string into an already sorted list of strings. -/
def insertSorted (x : String) : List String → List String
  | [] => [x]
  | y :: ys => if charListLe x.data y.data then x :: y :: ys else y :: insertSorted x ys

/-- Python sorted() on a list of strings. -/
def pySorted (l : List String) : List String := l.foldr insertSorted []

/-- Python ' '.join. -/
def joinSpace : List String → String
  | [] => ""
  | x :: xs => xs.foldl (fun acc s2 => acc ++ " " ++ s2) x

/-- gogui-rules_legal_moves: the empty response once either recorded
maximum reached 5; otherwise the sorted uppercase listing of every Empty
point (a format_point failure propagates as an uncaught exception, as does
the AttributeError of a missing colorMax). -/
def gogui_rules_legal_moves_cmd (st : ConnState) : Except String String :=
  match st.colorMax with
  | none => .error "AttributeError: colorMax"
  | some cm =>
    if 5 ≤ cm.w ∨ 5 ≤ cm.b then .ok ""
    else
      match (st.board.get_empty_points).mapM
          (fun c => format_point (Move.point c)) with
      | .error e => .error e
      | .ok gtp_moves => .ok (pyUpper (joinSpace (pySorted gtp_moves)))

/-- genmove_cmd: resign once either recorded maximum reached 5; otherwise
format and, when legal, play the move proposed by the engine (go_engine is
an external collaborator, so its proposal is a parameter here).  Color and
formatting failures propagate as uncaught exceptions. -/
def genmove_cmd (st : ConnState) (arg0 : String) (engineMove : Coord) :
    Except String (String × ConnState) :=
  match st.colorMax with
  | none => .error "AttributeError: colorMax"
  | some cm =>
    if 5 ≤ cm.w ∨ 5 ≤ cm.b then .ok ("resign", st)
    else
      match color_to_int (pyLower arg0) with
      | none => .error "KeyError"
      | some color =>
        match format_point (.point engineMove) with
        | .error e => .error e
        | .ok move_as_string =>
          if st.board.is_legal (.point engineMove) color then
            .ok (move_as_string,
              { st with board := (st.board.play_move (.point engineMove) color).2 })
          else .ok ("Illegal move: " ++ move_as_string, st)

/-- The connection-level body of insertKeyIntoDict: choose the player's
dictionary by the color string, update it with the placement, then update
that player's colorMax entry.  When the attributes are still None the
Python code raises at the point it has reached, keeping the mutations made
so far (the dictionary is aliased, so its update survives a later
AttributeError on colorMax); any other color string works on a throwaway
local dictionary and then raises TypeError comparing against
colorMax.get(color), which is None. -/
def insertKeyIntoDict_conn (st : ConnState) (colorStr : String) (coord : Coord) :
    Except (String × ConnState) ConnState :=
  if pyLower colorStr = "w" then
    match st.dictStoreWhiteMove with
    | none => .error ("Error: AttributeError: setdefault", st)
    | some d =>
      match st.colorMax with
      | none =>
        .error ("Error: AttributeError: colorMax",
          { st with dictStoreWhiteMove := some (insertRun d coord) })
      | some cm =>
        .ok { st with
                dictStoreWhiteMove := some (insertRun d coord),
                colorMax := some { cm with w := newMax (insertRun d coord) coord cm.w } }
  else if pyLower colorStr = "b" then
    match st.dictStoreBlackMove with
    | none => .error ("Error: AttributeError: setdefault", st)
    | some d =>
      match st.colorMax with
      | none =>
        .error ("Error: AttributeError: colorMax",
          { st with dictStoreBlackMove := some (insertRun d coord) })
      | some cm =>
        .ok { st with
                dictStoreBlackMove := some (insertRun d coord),
                colorMax := some { cm with b := newMax (insertRun d coord) coord cm.b } }
  else
    match st.colorMax with
    | none => .error ("Error: AttributeError: colorMax", st)
    | some _ => .error ("Error: TypeError", st)

/-- play_cmd: parse the color, handle a pass by flipping the player to
move, parse the coordinate, refuse any move once either recorded maximum
reached 5, try the placement on the board (refusing occupied cells), and
record a successful placement in the run tracker.  Every exception raised
inside the body is caught and answered with an Error response, keeping
whatever state changes happened before the raise. -/
def play_cmd (st : ConnState) (arg0 arg1 : String) : String × ConnState :=
  match color_to_int (pyLower arg0) with
  | none => ("Error: KeyError", st)
  | some color =>
    if pyLower arg1 = "pass" then
      ("", { st with board :=
        { (st.board.play_move Move.pass color).2 with current_player := opponent color } })
    else
      match move_to_coord arg1 st.board.size with
      | .error e => ("Error: " ++ e, st)
      | .ok ParsedMove.pass => ("Error: NameError", st)
      | .ok (ParsedMove.coord coord) =>
        match st.colorMax with
        | none => ("Error: AttributeError: colorMax", st)
        | some cm =>
          if 5 ≤ cm.w ∨ 5 ≤ cm.b then ("One side is win game over!", st)
          else
            match st.board.play_move (Move.point coord) color with
            | (false, _) => ("Illegal Move: " ++ arg1, st)
            | (true, bd1) =>
              match insertKeyIntoDict_conn { st with board := bd1 } arg0 coord with
              | .ok st2 => ("", st2)
              | .error es => es

theorem play_move_occupied (bd : Board) (c : Coord) (col : GoColor)
    (h : ¬ bd.cells c = GoColor.EMPTY) :
    bd.play_move (Move.point c) col = (false, bd) := by
  unfold Board.play_move
  dsimp only
  rw [if_neg h]

theorem play_move_empty (bd : Board) (c : Coord) (col : GoColor)
    (h : bd.cells c = GoColor.EMPTY) :
    bd.play_move (Move.point c) col
      = (true, { bd with cells := fun c' => if c' = c then col else bd.cells c' }) := by
  unfold Board.play_move
  dsimp only
  rw [if_pos h]

/-- C3 counterexample.  A finished position in which white's recorded
maximum is 5 but the board has no Empty cell left: the final-result command
reports draw, not the white win the claim requires (the draw check runs
first and wins). -/
theorem final_result_full_board_draw_cex :
    ({ board := { size := 2,
                  cells := fun c => if 1 ≤ c.1 ∧ c.1 ≤ 2 ∧ 1 ≤ c.2 ∧ c.2 ≤ 2
                                    then GoColor.WHITE else GoColor.EMPTY,
                  current_player := GoColor.BLACK },
       blackMax := none, whiteMax := none,
       dictStoreWhiteMove := some [], dictStoreBlackMove := some [],
       colorMax := some ⟨0, 5⟩ } : ConnState).colorMax = some ⟨0, 5⟩ ∧
    gogui_rules_final_result_cmd
      { board := { size := 2,
                   cells := fun c => if 1 ≤ c.1 ∧ c.1 ≤ 2 ∧ 1 ≤ c.2 ∧ c.2 ≤ 2
                                     then GoColor.WHITE else GoColor.EMPTY,
                   current_player := GoColor.BLACK },
        blackMax := none, whiteMax := none,
        dictStoreWhiteMove := some [], dictStoreBlackMove := some [],
        colorMax := some ⟨0, 5⟩ } = Except.ok "draw" ∧
    (Except.ok "draw" : Except String String) ≠ Except.ok "white win" := by
  refine ⟨rfl, ?_, by simp⟩
  rfl

/-- C3 amended.  When at least one Empty cell remains, a recorded maximum
of at least 5 is reported as that player's win (the white entry is checked
first, so the black report additionally needs white below 5); when no Empty
cell remains the command reports draw regardless of the recorded maxima. -/
theorem final_result_winner_amended (st : ConnState) (cm : ColorMax)
    (hcm : st.colorMax = some cm) :
    ((st.board.get_empty_points).length ≠ 0 → 5 ≤ cm.w →
      gogui_rules_final_result_cmd st = Except.ok "white win") ∧
    ((st.board.get_empty_points).length ≠ 0 → 5 ≤ cm.b → cm.w ≤ 4 →
      gogui_rules_final_result_cmd st = Except.ok "black win") ∧
    ((st.board.get_empty_points).length = 0 →
      gogui_rules_final_result_cmd st = Except.ok "draw") := by
  unfold gogui_rules_final_result_cmd
  refine ⟨?_, ?_, ?_⟩
  · intro hne hw
    rw [if_neg hne, hcm]
    dsimp only
    rw [if_pos hw]
  · intro hne hb hw
    rw [if_neg hne, hcm]
    dsimp only
    rw [if_neg (show ¬ 5 ≤ cm.w by omega), if_pos hb]
  · intro hz
    rw [if_pos hz]

theorem final_result_winner_amended_witness :
    gogui_rules_final_result_cmd
      { board := { size := 2, cells := fun _ => GoColor.EMPTY,
                   current_player := GoColor.BLACK },
        blackMax := none, whiteMax := none,
        dictStoreWhiteMove := some [], dictStoreBlackMove := some [],
        colorMax := some ⟨0, 5⟩ } = Except.ok "white win" :=
  (final_result_winner_amended
    { board := { size := 2, cells := fun _ => GoColor.EMPTY,
                 current_player := GoColor.BLACK },
      blackMax := none, whiteMax := none,
      dictStoreWhiteMove := some [], dictStoreBlackMove := some [],
      colorMax := some ⟨0, 5⟩ } ⟨0, 5⟩ rfl).1 (by decide) (by decide)

/-- C4.  A play command rejected because the coordinate fails to parse or
is off the board, because a recorded maximum already reached 5, or because
the target cell is occupied, leaves the whole connection state, board
occupancy, both move dictionaries and both colorMax entries, exactly as it
was: no part of the rejected move is applied. -/
theorem play_cmd_rejection_noop (st : ConnState) (arg0 arg1 : String)
    (hpass : ¬ pyLower arg1 = "pass")
    (hrej : (∃ e, move_to_coord arg1 st.board.size = Except.error e)
      ∨ (∃ cm, st.colorMax = some cm ∧ (5 ≤ cm.w ∨ 5 ≤ cm.b))
      ∨ (∃ cm rc, st.colorMax = some cm ∧ cm.w ≤ 4 ∧ cm.b ≤ 4 ∧
          move_to_coord arg1 st.board.size = Except.ok (ParsedMove.coord rc) ∧
          ¬ st.board.cells rc = GoColor.EMPTY)) :
    (play_cmd st arg0 arg1).2 = st := by
  unfold play_cmd
  cases hcol : color_to_int (pyLower arg0) with
  | none => rfl
  | some color =>
    dsimp only
    rw [if_neg hpass]
    rcases hrej with ⟨e, he⟩ | ⟨cm, hcm, hgate⟩ | ⟨cm, rc, hcm, hw, hb, hok, hocc⟩
    · rw [he]
    · cases hmv : move_to_coord arg1 st.board.size with
      | error e => rfl
      | ok pm =>
        cases pm with
        | pass => rfl
        | coord rc =>
          rw [hcm]
          dsimp only
          rw [if_pos hgate]
    · rw [hok, hcm]
      dsimp only
      rw [if_neg (show ¬ (5 ≤ cm.w ∨ 5 ≤ cm.b) by omega),
        play_move_occupied st.board rc color hocc]

theorem play_cmd_rejection_noop_witness :
    (play_cmd
      { board := { size := 5,
                   cells := fun c => if c = (1, 1) then GoColor.BLACK else GoColor.EMPTY,
                   current_player := GoColor.WHITE },
        blackMax := none, whiteMax := none,
        dictStoreWhiteMove := some [],
        dictStoreBlackMove := some [((1, 1), ⟨1, 1, 1, 1⟩)],
        colorMax := some ⟨1, 0⟩ } "w" "a1").2
    = { board := { size := 5,
                   cells := fun c => if c = (1, 1) then GoColor.BLACK else GoColor.EMPTY,
                   current_player := GoColor.WHITE },
        blackMax := none, whiteMax := none,
        dictStoreWhiteMove := some [],
        dictStoreBlackMove := some [((1, 1), ⟨1, 1, 1, 1⟩)],
        colorMax := some ⟨1, 0⟩ } :=
  play_cmd_rejection_noop _ "w" "a1" (by decide)
    (Or.inr (Or.inr ⟨⟨1, 0⟩, (1, 1), rfl, by decide, by decide, rfl, by decide⟩))

/-- C8.  A play command whose move token lowercases to pass leaves both
move dictionaries and colorMax unchanged and sets the player to move to the
opponent of the command's color, answering with the empty (success)
response. -/
theorem play_pass_frame (st : ConnState) (arg0 arg1 : String) (col : GoColor)
    (hcol : color_to_int (pyLower arg0) = some col)
    (hbw : col = GoColor.BLACK ∨ col = GoColor.WHITE)
    (hpass : pyLower arg1 = "pass") :
    (play_cmd st arg0 arg1).1 = "" ∧
    (play_cmd st arg0 arg1).2.dictStoreWhiteMove = st.dictStoreWhiteMove ∧
    (play_cmd st arg0 arg1).2.dictStoreBlackMove = st.dictStoreBlackMove ∧
    (play_cmd st arg0 arg1).2.colorMax = st.colorMax ∧
    (play_cmd st arg0 arg1).2.board.current_player = opponent col := by
  unfold play_cmd
  rw [hcol]
  dsimp only
  rw [if_pos hpass]
  exact ⟨rfl, rfl, rfl, rfl, rfl⟩

theorem play_pass_frame_witness :
    (play_cmd
      { board := { size := 5, cells := fun _ => GoColor.EMPTY,
                   current_player := GoColor.BLACK },
        blackMax := none, whiteMax := none,
        dictStoreWhiteMove := some [], dictStoreBlackMove := some [],
        colorMax := some ⟨0, 0⟩ } "b" "PASS").1 = "" ∧
    (play_cmd
      { board := { size := 5, cells := fun _ => GoColor.EMPTY,
                   current_player := GoColor.BLACK },
        blackMax := none, whiteMax := none,
        dictStoreWhiteMove := some [], dictStoreBlackMove := some [],
        colorMax := some ⟨0, 0⟩ } "b" "PASS").2.dictStoreWhiteMove = some [] ∧
    (play_cmd
      { board := { size := 5, cells := fun _ => GoColor.EMPTY,
                   current_player := GoColor.BLACK },
        blackMax := none, whiteMax := none,
        dictStoreWhiteMove := some [], dictStoreBlackMove := some [],
        colorMax := some ⟨0, 0⟩ } "b" "PASS").2.dictStoreBlackMove = some [] ∧
    (play_cmd
      { board := { size := 5, cells := fun _ => GoColor.EMPTY,
                   current_player := GoColor.BLACK },
        blackMax := none, whiteMax := none,
        dictStoreWhiteMove := some [], dictStoreBlackMove := some [],
        colorMax := some ⟨0, 0⟩ } "b" "PASS").2.colorMax = some ⟨0, 0⟩ ∧
    (play_cmd
      { board := { size := 5, cells := fun _ => GoColor.EMPTY,
                   current_player := GoColor.BLACK },
        blackMax := none, whiteMax := none,
        dictStoreWhiteMove := some [], dictStoreBlackMove := some [],
        colorMax := some ⟨0, 0⟩ } "b" "PASS").2.board.current_player
      = opponent GoColor.BLACK :=
  play_pass_frame _ "b" "PASS" GoColor.BLACK rfl (Or.inl rfl) rfl

/-- C7 counterexample.  A connection whose tracker already holds a stone
and a colorMax of 5: after a boardsize command the tracker is not
discarded, its dictionary entry and the recorded maximum survive, against
the claim that every board-size change fully discards the tracker state. -/
theorem boardsize_keeps_tracker_cex :
    (boardsize_cmd
      { board := { size := 5, cells := fun _ => GoColor.EMPTY,
                   current_player := GoColor.BLACK },
        blackMax := none, whiteMax := none,
        dictStoreWhiteMove := some [],
        dictStoreBlackMove := some [((1, 1), ⟨1, 1, 1, 1⟩)],
        colorMax := some ⟨5, 0⟩ } 3).2.colorMax ≠ some ⟨0, 0⟩ ∧
    (boardsize_cmd
      { board := { size := 5, cells := fun _ => GoColor.EMPTY,
                   current_player := GoColor.BLACK },
        blackMax := none, whiteMax := none,
        dictStoreWhiteMove := some [],
        dictStoreBlackMove := some [((1, 1), ⟨1, 1, 1, 1⟩)],
        colorMax := some ⟨5, 0⟩ } 3).2.dictStoreBlackMove ≠ some [] := by
  constructor
  · intro h
    exact absurd h (by decide)
  · intro h
    exact absurd h (by decide)

/-- C7 amended.  clear_board discards the run tracker completely, leaving
empty dictionaries and zero colorMax entries for both players; the
boardsize command only resets the board and leaves the tracker state of
both players untouched (it is discarded only by the next clear_board). -/
theorem reset_semantics_amended :
    (∀ st : ConnState, 2 ≤ st.board.size → st.board.size ≤ MAXSIZE →
      (clear_board_cmd st).2.dictStoreWhiteMove = some [] ∧
      (clear_board_cmd st).2.dictStoreBlackMove = some [] ∧
      (clear_board_cmd st).2.colorMax = some ⟨0, 0⟩) ∧
    (∀ (st : ConnState) (n : Nat),
      (boardsize_cmd st n).2.dictStoreWhiteMove = st.dictStoreWhiteMove ∧
      (boardsize_cmd st n).2.dictStoreBlackMove = st.dictStoreBlackMove ∧
      (boardsize_cmd st n).2.colorMax = st.colorMax) := by
  constructor
  · intro st h1 h2
    unfold clear_board_cmd Board.reset
    rw [if_pos ⟨h1, h2⟩]
    exact ⟨rfl, rfl, rfl⟩
  · intro st n
    unfold boardsize_cmd Board.reset
    by_cases h : 2 ≤ n ∧ n ≤ MAXSIZE
    · rw [if_pos h]
      exact ⟨rfl, rfl, rfl⟩
    · rw [if_neg h]
      exact ⟨rfl, rfl, rfl⟩

theorem reset_semantics_amended_witness :
    (clear_board_cmd
      { board := { size := 5, cells := fun _ => GoColor.EMPTY,
                   current_player := GoColor.BLACK },
        blackMax := none, whiteMax := none,
        dictStoreWhiteMove := some [],
        dictStoreBlackMove := some [((1, 1), ⟨1, 1, 1, 1⟩)],
        colorMax := some ⟨5, 0⟩ }).2.colorMax = some ⟨0, 0⟩ :=
  (reset_semantics_amended.1
    { board := { size := 5, cells := fun _ => GoColor.EMPTY,
                 current_player := GoColor.BLACK },
      blackMax := none, whiteMax := none,
      dictStoreWhiteMove := some [],
      dictStoreBlackMove := some [((1, 1), ⟨1, 1, 1, 1⟩)],
      colorMax := some ⟨5, 0⟩ } (by decide) (by decide)).2.2

/-- C10.  On a connection on which clear_board has never run, the colorMax
attribute does not exist and both move dictionaries are None, and any play
command with a valid non-pass coordinate hits the missing colorMax, whose
AttributeError is caught inside play_cmd and answered as an error response
with the state unchanged, so no stone is recorded in the run tracker. -/
theorem preclear_play_cmd_errors (bd : Board) (arg0 arg1 : String)
    (col : GoColor) (hcol : color_to_int (pyLower arg0) = some col)
    (hpass : ¬ pyLower arg1 = "pass") (rc : Coord)
    (hok : move_to_coord arg1 bd.size = Except.ok (ParsedMove.coord rc)) :
    (initConn bd).colorMax = none ∧
    (initConn bd).dictStoreWhiteMove = none ∧
    (initConn bd).dictStoreBlackMove = none ∧
    play_cmd (initConn bd) arg0 arg1
      = ("Error: AttributeError: colorMax", initConn bd) := by
  refine ⟨rfl, rfl, rfl, ?_⟩
  unfold play_cmd
  rw [hcol]
  dsimp only
  rw [if_neg hpass]
  have hbd : (initConn bd).board.size = bd.size := rfl
  rw [hbd, hok]
  rfl

theorem preclear_play_cmd_errors_witness :
    (initConn { size := 5, cells := fun _ => GoColor.EMPTY,
                current_player := GoColor.BLACK }).colorMax = none ∧
    (initConn { size := 5, cells := fun _ => GoColor.EMPTY,
                current_player := GoColor.BLACK }).dictStoreWhiteMove = none ∧
    (initConn { size := 5, cells := fun _ => GoColor.EMPTY,
                current_player := GoColor.BLACK }).dictStoreBlackMove = none ∧
    play_cmd (initConn { size := 5, cells := fun _ => GoColor.EMPTY,
                         current_player := GoColor.BLACK }) "b" "c3"
      = ("Error: AttributeError: colorMax",
         initConn { size := 5, cells := fun _ => GoColor.EMPTY,
                    current_player := GoColor.BLACK }) :=
  preclear_play_cmd_errors _ "b" "c3" GoColor.BLACK rfl (by decide) (3, 3) rfl

theorem get_empty_points_bounds (bd : Board) (c : Coord)
    (h : c ∈ bd.get_empty_points) :
    1 ≤ c.1 ∧ c.1 ≤ (bd.size : Int) ∧ 1 ≤ c.2 ∧ c.2 ≤ (bd.size : Int) := by
  unfold Board.get_empty_points at h
  rw [List.mem_flatten] at h
  obtain ⟨l, hl, hcl⟩ := h
  rw [List.mem_map] at hl
  obtain ⟨r, hr, rfl⟩ := hl
  rw [List.mem_range] at hr
  rw [List.mem_filterMap] at hcl
  obtain ⟨cc, hcc, hsome⟩ := hcl
  rw [List.mem_range] at hcc
  by_cases hemp : bd.cells (((r : Int) + 1), ((cc : Int) + 1)) = GoColor.EMPTY
  · rw [if_pos hemp] at hsome
    cases hsome
    refine ⟨by omega, by omega, by omega, by omega⟩
  · rw [if_neg hemp] at hsome
    cases hsome

theorem mapM_ok_of_forall (f : Coord → Except String String) :
    ∀ l : List Coord, (∀ a ∈ l, ∃ b, f a = Except.ok b) →
      ∃ out : List String, l.mapM f = Except.ok out := by
  intro l
  induction l with
  | nil => intro _; exact ⟨[], rfl⟩
  | cons a tl ih =>
    intro h
    obtain ⟨b, hb⟩ := h a (List.mem_cons_self a tl)
    obtain ⟨out, hout⟩ := ih (fun x hx => h x (List.mem_cons_of_mem a hx))
    refine ⟨b :: out, ?_⟩
    rw [List.mapM_cons, hb, hout]
    rfl

/-- C6 counterexample.  A finished position with black's recorded maximum
exactly 5 but every cell occupied: the final-result command reports draw
rather than the black win that the claim's "win reported" requires, so a
maximum of exactly 5 does not always produce a reported win. -/
theorem win_exactness_full_board_cex :
    ({ board := { size := 2,
                  cells := fun c => if 1 ≤ c.1 ∧ c.1 ≤ 2 ∧ 1 ≤ c.2 ∧ c.2 ≤ 2
                                    then GoColor.BLACK else GoColor.EMPTY,
                  current_player := GoColor.WHITE },
       blackMax := none, whiteMax := none,
       dictStoreWhiteMove := some [], dictStoreBlackMove := some [],
       colorMax := some ⟨5, 0⟩ } : ConnState).colorMax = some ⟨5, 0⟩ ∧
    gogui_rules_final_result_cmd
      { board := { size := 2,
                   cells := fun c => if 1 ≤ c.1 ∧ c.1 ≤ 2 ∧ 1 ≤ c.2 ∧ c.2 ≤ 2
                                     then GoColor.BLACK else GoColor.EMPTY,
                   current_player := GoColor.WHITE },
        blackMax := none, whiteMax := none,
        dictStoreWhiteMove := some [], dictStoreBlackMove := some [],
        colorMax := some ⟨5, 0⟩ } = Except.ok "draw" ∧
    (Except.ok "draw" : Except String String) ≠ Except.ok "black win" := by
  refine ⟨rfl, ?_, by simp⟩
  rfl

/-- C6 amended.  The win threshold is exactly at-least-5 with no off-by-one
in either direction, with the caveat that the reported win additionally
requires an Empty cell to remain (a simultaneously full board reports
draw): with a recorded maximum of exactly 5 for either player, play_cmd
refuses every further placement leaving the state unchanged, genmove_cmd
answers resign, and the legal-moves command answers the empty list; with an
Empty cell left, a maximum of exactly 5 is reported as that player's win
(white checked first).  With both maxima at 4 or below none of these
effects occurs: a play command by either player color on an Empty parsed
cell is applied and recorded in that player's dictionary, and no win is
reported; on a board of size at most MAXSIZE - 1 = 24 genmove plays the
engine's legal move and the legal-moves command answers the full formatted
listing (on a size-25 board those two commands instead hit the
format_point ValueError on row or column 25, the defect of the coordinate
round trip). -/
theorem win_threshold_exact_amended (st : ConnState) (cm : ColorMax)
    (hcm : st.colorMax = some cm) :
    (cm.b = 5 ∨ cm.w = 5 →
      (∀ arg0 arg1 : String, ∀ col : GoColor, ∀ rc : Coord,
        color_to_int (pyLower arg0) = some col →
        ¬ pyLower arg1 = "pass" →
        move_to_coord arg1 st.board.size = Except.ok (ParsedMove.coord rc) →
        play_cmd st arg0 arg1 = ("One side is win game over!", st)) ∧
      (∀ arg0 : String, ∀ em : Coord,
        genmove_cmd st arg0 em = Except.ok ("resign", st)) ∧
      gogui_rules_legal_moves_cmd st = Except.ok "") ∧
    ((st.board.get_empty_points).length ≠ 0 → cm.w = 5 →
      gogui_rules_final_result_cmd st = Except.ok "white win") ∧
    ((st.board.get_empty_points).length ≠ 0 → cm.b = 5 → cm.w ≤ 4 →
      gogui_rules_final_result_cmd st = Except.ok "black win") ∧
    (cm.b ≤ 4 → cm.w ≤ 4 →
      (∀ arg0 arg1 : String, ∀ rc : Coord, ∀ dcur : MoveDict,
        pyLower arg0 = "b" →
        st.dictStoreBlackMove = some dcur →
        ¬ pyLower arg1 = "pass" →
        move_to_coord arg1 st.board.size = Except.ok (ParsedMove.coord rc) →
        st.board.cells rc = GoColor.EMPTY →
        (play_cmd st arg0 arg1).1 = "" ∧
        (play_cmd st arg0 arg1).2.board.cells rc = GoColor.BLACK ∧
        (play_cmd st arg0 arg1).2.dictStoreBlackMove = some (insertRun dcur rc)) ∧
      (∀ arg0 arg1 : String, ∀ rc : Coord, ∀ dcur : MoveDict,
        pyLower arg0 = "w" →
        st.dictStoreWhiteMove = some dcur →
        ¬ pyLower arg1 = "pass" →
        move_to_coord arg1 st.board.size = Except.ok (ParsedMove.coord rc) →
        st.board.cells rc = GoColor.EMPTY →
        (play_cmd st arg0 arg1).1 = "" ∧
        (play_cmd st arg0 arg1).2.board.cells rc = GoColor.WHITE ∧
        (play_cmd st arg0 arg1).2.dictStoreWhiteMove = some (insertRun dcur rc)) ∧
      (∀ arg0 : String, ∀ col : GoColor, ∀ em : Coord,
        st.board.size ≤ 24 →
        color_to_int (pyLower arg0) = some col →
        st.board.is_legal (Move.point em) col = true →
        ∃ ms : String, ∃ st2 : ConnState,
          genmove_cmd st arg0 em = Except.ok (ms, st2) ∧
          st2.board.cells em = col) ∧
      (st.board.size ≤ 24 →
        ∃ out : List String,
          (st.board.get_empty_points).mapM (fun c => format_point (Move.point c))
            = Except.ok out ∧
          gogui_rules_legal_moves_cmd st
            = Except.ok (pyUpper (joinSpace (pySorted out)))) ∧
      gogui_rules_final_result_cmd st ≠ Except.ok "white win" ∧
      gogui_rules_final_result_cmd st ≠ Except.ok "black win") := by
  refine ⟨?_, ?_, ?_, ?_⟩
  · -- the three gates fire at exactly 5
    intro h5
    have hgate : 5 ≤ cm.w ∨ 5 ≤ cm.b := by omega
    refine ⟨?_, ?_, ?_⟩
    · intro arg0 arg1 col rc hcol hpass hok
      unfold play_cmd
      rw [hcol]
      dsimp only
      rw [if_neg hpass, hok, hcm]
      dsimp only
      rw [if_pos hgate]
    · intro arg0 em
      unfold genmove_cmd
      rw [hcm]
      dsimp only
      rw [if_pos hgate]
    · unfold gogui_rules_legal_moves_cmd
      rw [hcm]
      dsimp only
      rw [if_pos hgate]
  · intro hne hw
    unfold gogui_rules_final_result_cmd
    rw [if_neg hne, hcm]
    dsimp only
    rw [if_pos (show 5 ≤ cm.w by omega)]
  · intro hne hb hw
    unfold gogui_rules_final_result_cmd
    rw [if_neg hne, hcm]
    dsimp only
    rw [if_neg (show ¬ 5 ≤ cm.w by omega), if_pos (show 5 ≤ cm.b by omega)]
  · intro hb4 hw4
    have hgate : ¬ (5 ≤ cm.w ∨ 5 ≤ cm.b) := by omega
    refine ⟨?_, ?_, ?_, ?_, ?_, ?_⟩
    · intro arg0 arg1 rc dcur hb0 hdb hpass hok hemp
      unfold play_cmd
      rw [hb0, show color_to_int "b" = some GoColor.BLACK from rfl]
      dsimp only
      rw [if_neg hpass, hok, hcm]
      dsimp only
      rw [if_neg hgate, play_move_empty st.board rc GoColor.BLACK hemp]
      dsimp only
      unfold insertKeyIntoDict_conn
      rw [hb0]
      rw [if_neg (show ¬ ("b" : String) = "w" by decide), if_pos rfl]
      dsimp only
      rw [hdb]
      dsimp only
      refine ⟨rfl, ?_, rfl⟩
      dsimp only
      rw [if_pos rfl]
    · intro arg0 arg1 rc dcur hw0 hdw hpass hok hemp
      unfold play_cmd
      rw [hw0, show color_to_int "w" = some GoColor.WHITE from rfl]
      dsimp only
      rw [if_neg hpass, hok, hcm]
      dsimp only
      rw [if_neg hgate, play_move_empty st.board rc GoColor.WHITE hemp]
      dsimp only
      unfold insertKeyIntoDict_conn
      rw [hw0]
      rw [if_pos rfl]
      dsimp only
      rw [hdw]
      dsimp only
      refine ⟨rfl, ?_, rfl⟩
      dsimp only
      rw [if_pos rfl]
    · intro arg0 col em hsize hcol hleg
      have hleg' := hleg
      unfold Board.is_legal at hleg'
      dsimp only at hleg'
      simp only [Bool.and_eq_true, decide_eq_true_eq] at hleg'
      obtain ⟨⟨⟨⟨h1, h2⟩, h3⟩, h4⟩, hemp⟩ := hleg'
      have hsz : (st.board.size : Int) ≤ 24 := by
        have h24 : ((24 : Nat) : Int) = 24 := by norm_num
        omega
      have hM : ((MAXSIZE : Nat) : Int) = 25 := by norm_num [MAXSIZE]
      have hmseq : format_point (Move.point em)
          = Except.ok (String.mk [pyIndex column_letters.data (em.2 - 1)]
              ++ Nat.repr em.1.toNat) := by
        unfold format_point
        dsimp only
        rw [if_pos ⟨by omega, by omega, by omega, by omega⟩]
      unfold genmove_cmd
      rw [hcm]
      dsimp only
      rw [if_neg hgate, hcol]
      dsimp only
      rw [hmseq]
      dsimp only
      rw [if_pos hleg]
      refine ⟨_, _, rfl, ?_⟩
      rw [play_move_empty st.board em col hemp]
      dsimp only
      rw [if_pos rfl]
    · intro hsize
      have hall : ∀ c ∈ st.board.get_empty_points,
          ∃ b, format_point (Move.point c) = Except.ok b := by
        intro c hc
        obtain ⟨h1, h2, h3, h4⟩ := get_empty_points_bounds st.board c hc
        refine ⟨String.mk [pyIndex column_letters.data (c.2 - 1)] ++ Nat.repr c.1.toNat, ?_⟩
        unfold format_point
        have hsz : (st.board.size : Int) ≤ 24 := by
          have : ((24 : Nat) : Int) = 24 := by norm_num
          omega
        dsimp only
        have hM : ((MAXSIZE : Nat) : Int) = 25 := by norm_num [MAXSIZE]
        rw [if_pos ⟨by omega, by omega, by omega, by omega⟩]
      obtain ⟨out, hout⟩ := mapM_ok_of_forall _ (st.board.get_empty_points) hall
      refine ⟨out, hout, ?_⟩
      unfold gogui_rules_legal_moves_cmd
      rw [hcm]
      dsimp only
      rw [if_neg hgate, hout]
    · intro hcon
      unfold gogui_rules_final_result_cmd at hcon
      by_cases hz : (st.board.get_empty_points).length = 0
      · rw [if_pos hz] at hcon
        exact absurd hcon (by simp)
      · rw [if_neg hz, hcm] at hcon
        dsimp only at hcon
        rw [if_neg (show ¬ 5 ≤ cm.w by omega),
          if_neg (show ¬ 5 ≤ cm.b by omega)] at hcon
        exact absurd hcon (by simp)
    · intro hcon
      unfold gogui_rules_final_result_cmd at hcon
      by_cases hz : (st.board.get_empty_points).length = 0
      · rw [if_pos hz] at hcon
        exact absurd hcon (by simp)
      · rw [if_neg hz, hcm] at hcon
        dsimp only at hcon
        rw [if_neg (show ¬ 5 ≤ cm.w by omega),
          if_neg (show ¬ 5 ≤ cm.b by omega)] at hcon
        exact absurd hcon (by simp)

theorem win_threshold_exact_amended_witness :
    play_cmd
      { board := { size := 5, cells := fun _ => GoColor.EMPTY,
                   current_player := GoColor.WHITE },
        blackMax := none, whiteMax := none,
        dictStoreWhiteMove := some [], dictStoreBlackMove := some [],
        colorMax := some ⟨5, 0⟩ } "w" "c3"
      = ("One side is win game over!",
         { board := { size := 5, cells := fun _ => GoColor.EMPTY,
                      current_player := GoColor.WHITE },
           blackMax := none, whiteMax := none,
           dictStoreWhiteMove := some [], dictStoreBlackMove := some [],
           colorMax := some ⟨5, 0⟩ }) :=
  ((win_threshold_exact_amended _ ⟨5, 0⟩ rfl).1 (Or.inl rfl)).1
    "w" "c3" GoColor.WHITE (3, 3) rfl (by decide) rfl

set_option maxHeartbeats 1000000 in
/-- Facts about each usable column letter, checked for every column index up
to 24: the letter is already lowercase, lies in a..z, is not i, and the
column computation of move_to_coord inverts the indexing of format_point. -/
theorem col_letter_facts : ∀ c : Nat, c < 25 → 1 ≤ c →
    (Char.toLower (pyIndex column_letters.data ((c : Int) - 1))
      = pyIndex column_letters.data ((c : Int) - 1)) ∧
    97 ≤ (pyIndex column_letters.data ((c : Int) - 1)).toNat ∧
    (pyIndex column_letters.data ((c : Int) - 1)).toNat ≤ 122 ∧
    (pyIndex column_letters.data ((c : Int) - 1)).toNat ≠ 105 ∧
    ((if (pyIndex column_letters.data ((c : Int) - 1)).toNat < 105
      then ((pyIndex column_letters.data ((c : Int) - 1)).toNat : Int) - 97 + 1
      else ((pyIndex column_letters.data ((c : Int) - 1)).toNat : Int) - 97)
      = (c : Int)) := by
  decide

set_option maxHeartbeats 1000000 in
/-- Facts about each printed row numeral up to 24: its digits are unchanged
by lowercasing and int() parses it back. -/
theorem repr_digit_facts : ∀ r : Nat, r < 25 → 1 ≤ r →
    ((Nat.repr r).data.map Char.toLower = (Nat.repr r).data) ∧
    pyInt ((Nat.repr r).data) = some ((r : Nat) : Int) := by
  decide

theorem ass_not_int : pyInt ['a', 's', 's'] = none := by decide

theorem string_mk_append (l : List Char) (s : String) :
    String.mk l ++ s = String.mk (l ++ s.data) := rfl

theorem pyLower_mk (l : List Char) :
    pyLower (String.mk l) = String.mk (l.map Char.toLower) := rfl

theorem parse_rc_pos (l : List Char) (rc : Int × Int)
    (h : parse_rc l = some rc) : 1 ≤ rc.1 ∧ 1 ≤ rc.2 := by
  cases l with
  | nil => cases h
  | cons c0 rest =>
    unfold parse_rc at h
    dsimp only at h
    by_cases hcnd : (97 ≤ c0.toNat ∧ c0.toNat ≤ 122) ∧ c0.toNat ≠ 105
    · rw [if_pos hcnd] at h
      cases hint : pyInt rest with
      | none => rw [hint] at h; cases h
      | some row =>
        rw [hint] at h
        dsimp only at h
        by_cases hrow : row < 1
        · rw [if_pos hrow] at h
          cases h
        · rw [if_neg hrow] at h
          cases h
          constructor
          · dsimp only
            omega
          · dsimp only
            by_cases hlt : c0.toNat < 105
            · rw [if_pos hlt]
              omega
            · rw [if_neg hlt]
              omega
    · rw [if_neg hcnd] at h
      cases h

/-- C9 counterexample.  With the spec's MAXSIZE of 25, the claim demands the
round trip for every row and column up to the board size, including a board
of size MAXSIZE itself; but format_point insists on row < MAXSIZE and
col < MAXSIZE, so the on-board point (25, 25) of a size-25 board cannot even
be formatted: it raises ValueError instead of producing a string. -/
theorem format_point_at_maxsize_cex :
    2 ≤ MAXSIZE ∧ 25 = MAXSIZE ∧
    format_point (Move.point ((25 : Int), (25 : Int))) = Except.error "ValueError" := by
  exact ⟨by decide, by decide, rfl⟩

/-- C9 amended.  The coordinate text encoding is a bijection on rows and
columns up to 24 (one less than MAXSIZE, because format_point rejects
components equal to MAXSIZE): for every board size N in [2, MAXSIZE] and
every (row, col) with 1 <= row, col <= N and row, col <= 24, format_point
produces a string that move_to_coord maps back to (row, col), with columns
a..z skipping i (so column 9 is j) and 1-based rows; moreover every string
accepted by move_to_coord yields a coordinate with 1 <= row, col <= N, so
any string whose column or row falls outside 1..N is rejected. -/
theorem coord_roundtrip_amended :
    (∀ N r c : Nat, 2 ≤ N → N ≤ MAXSIZE → 1 ≤ r → r ≤ N → 1 ≤ c → c ≤ N →
      r ≤ 24 → c ≤ 24 →
      ∃ s : String,
        format_point (Move.point ((r : Int), (c : Int))) = Except.ok s ∧
        move_to_coord s N = Except.ok (ParsedMove.coord ((r : Int), (c : Int)))) ∧
    (∀ (s : String) (N : Nat) (rc : Coord),
      move_to_coord s N = Except.ok (ParsedMove.coord rc) →
      1 ≤ rc.1 ∧ rc.1 ≤ (N : Int) ∧ 1 ≤ rc.2 ∧ rc.2 ≤ (N : Int)) := by
  constructor
  · intro N r c hN2 hNM hr1 hrN hc1 hcN hr24 hc24
    obtain ⟨hlow, h97, h122, h105, hcol⟩ := col_letter_facts c (by omega) hc1
    obtain ⟨hdiglow, hdigint⟩ := repr_digit_facts r (by omega) hr1
    have hM : ((MAXSIZE : Nat) : Int) = 25 := by norm_num [MAXSIZE]
    have hMN : N ≤ 25 := by
      have : MAXSIZE = 25 := by norm_num [MAXSIZE]
      omega
    have htn : ((r : Int)).toNat = r := by omega
    refine ⟨String.mk [pyIndex column_letters.data ((c : Int) - 1)] ++ Nat.repr r, ?_, ?_⟩
    · unfold format_point
      dsimp only
      rw [if_pos ⟨by omega, by omega, by omega, by omega⟩, htn]
    · rw [string_mk_append]
      unfold move_to_coord
      rw [if_neg (show ¬ ¬ (2 ≤ N ∧ N ≤ MAXSIZE) from fun hh => hh ⟨hN2, hNM⟩)]
      dsimp only
      have hslow : pyLower (String.mk
          ([pyIndex column_letters.data ((c : Int) - 1)] ++ (Nat.repr r).data))
          = String.mk
          ([pyIndex column_letters.data ((c : Int) - 1)] ++ (Nat.repr r).data) := by
        rw [pyLower_mk, List.map_append, List.map_cons, List.map_nil, hlow, hdiglow]
      rw [hslow]
      have hnotpass : ¬ (String.mk
          ([pyIndex column_letters.data ((c : Int) - 1)] ++ (Nat.repr r).data)
          = "pass") := by
        intro heq
        have hdata := congrArg String.data heq
        simp only [List.cons_append, List.nil_append] at hdata
        have : (Nat.repr r).data = ['a', 's', 's'] := by
          exact (List.cons.injEq _ _ _ _).mp hdata |>.2
        rw [this, ass_not_int] at hdigint
        cases hdigint
      rw [if_neg hnotpass]
      have hdat : (String.mk
          ([pyIndex column_letters.data ((c : Int) - 1)] ++ (Nat.repr r).data)).data
          = pyIndex column_letters.data ((c : Int) - 1) :: (Nat.repr r).data := rfl
      rw [hdat]
      unfold parse_rc
      dsimp only
      rw [if_pos ⟨⟨h97, h122⟩, h105⟩, hdigint]
      dsimp only
      rw [if_neg (show ¬ ((r : Nat) : Int) < 1 by omega)]
      rw [hcol]
      dsimp only
      rw [if_neg (show ¬ ¬ ((c : Int) ≤ (N : Int) ∧ (r : Int) ≤ (N : Int)) from
        fun hh => hh ⟨by omega, by omega⟩)]
  · intro s N rc hok
    unfold move_to_coord at hok
    by_cases hb : 2 ≤ N ∧ N ≤ MAXSIZE
    · rw [if_neg (fun hh => hh hb)] at hok
      dsimp only at hok
      by_cases hpass : pyLower s = "pass"
      · rw [if_pos hpass] at hok
        simp at hok
      · rw [if_neg hpass] at hok
        cases hparse : parse_rc (pyLower s).data with
        | none => rw [hparse] at hok; cases hok
        | some rc' =>
          rw [hparse] at hok
          dsimp only at hok
          by_cases hbd : ¬ (rc'.2 ≤ (N : Int) ∧ rc'.1 ≤ (N : Int))
          · rw [if_pos hbd] at hok
            cases hok
          · rw [if_neg hbd] at hok
            have hrc : rc' = rc := by
              cases hok
              rfl
            push_neg at hbd
            obtain ⟨hpos1, hpos2⟩ := parse_rc_pos _ rc' hparse
            rw [hrc] at hpos1 hpos2 hbd
            exact ⟨hpos1, hbd.2, hpos2, hbd.1⟩
    · rw [if_pos hb] at hok
      cases hok

theorem coord_roundtrip_amended_witness :
    ∃ s : String,
      format_point (Move.point (((3 : Nat) : Int), ((9 : Nat) : Int))) = Except.ok s ∧
      move_to_coord s 9 = Except.ok (ParsedMove.coord (((3 : Nat) : Int), ((9 : Nat) : Int))) :=
  coord_roundtrip_amended.1 9 3 9 (by decide) (by decide) (by decide) (by decide)
    (by decide) (by decide) (by decide) (by decide)
